import Mathlib

/-!
# Retention cleaner: a shallow embedding of `retention-cleaner.go`

The development embeds the pure parts of the program (`retentionFor`,
`parseTimestampFromParts`, `splitClean`, the per-directory callback of `walkCompany`) as
Lean functions, the directory walk (`walkDirOnly`, `walkCompany`, `walkCompanies`) as
functions over an explicit directory tree that return the callback calls in order, and the
worker pool of `main` as state passing over an explicit run state and schedule.

Go strings are lists of characters, Go `int` is `Int` confined to 64 bits by `wrapInt64`,
Go `uint64` is `Int` confined by `wrapUint64`. The functions of the Go standard library
that the program calls (`strconv.Atoi`, `strings.Split`, `strings.TrimSpace`,
`filepath.Clean`, `filepath.Join`, `time.Date`, `Time.AddDate`, `Time.Before` and the `Time`
accessors) are modelled after the library (for `time`, the implementation with
`daysSinceEpoch` and `absDate`). The file system is what the operating system answers to
the program: the entries of the data root, the entry found at a path, and for each
directory its entries or a read error. Entry names are those of a real directory (not
empty, no separator, neither `.` nor `..`).
-/

namespace RetentionCleaner

/-! ## Strings -/

/-- Go strings, as lists of characters. -/
abbrev Str := List Char

/-- The path separator `os.PathSeparator` of the platform (Unix). -/
def pathSeparator : Char := '/'

/-- Model of `unicode.IsSpace`: the Latin-1 spaces and the code points with the
Unicode White_Space property. -/
def isSpace (c : Char) : Bool :=
  c.toNat = 0x09 || c.toNat = 0x0A || c.toNat = 0x0B || c.toNat = 0x0C || c.toNat = 0x0D ||
  c.toNat = 0x20 || c.toNat = 0x85 || c.toNat = 0xA0 || c.toNat = 0x1680 ||
  (0x2000 ≤ c.toNat && c.toNat ≤ 0x200A) ||
  c.toNat = 0x2028 || c.toNat = 0x2029 || c.toNat = 0x202F || c.toNat = 0x205F ||
  c.toNat = 0x3000

/-- Model of `strings.TrimSpace`: drop leading and trailing white space. -/
def TrimSpace (s : Str) : Str :=
  ((s.dropWhile isSpace).reverse.dropWhile isSpace).reverse

/-- Model of `strings.Split(p, sep)` for a one-character separator: the
substrings between separators, in order (one more than the number of separators). -/
def Split (sep : Char) : Str → List Str
  | [] => [[]]
  | c :: cs =>
    if c = sep then [] :: Split sep cs
    else
      match Split sep cs with
      | [] => [[c]]
      | h :: t => (c :: h) :: t

/-- The loop of `splitClean`: every part is trimmed; a part that is then empty or
`"."` is dropped, the others are appended in order. -/
def cleanParts : List Str → List Str
  | [] => []
  | s :: rest =>
    let s := TrimSpace s
    if s = [] ∨ s = ['.'] then cleanParts rest else s :: cleanParts rest

/-- Source: `splitClean`. -/
def splitClean (p : Str) : List Str :=
  if p = [] ∨ p = ['.'] then []
  else cleanParts (Split pathSeparator p)

/-- Model of `strings.Join(elems, "/")`: the names joined by the path separator. -/
def joinPath : List Str → Str
  | [] => []
  | [n] => n
  | n :: rest => n ++ pathSeparator :: joinPath rest

/-- One element in the loop of `filepath.Clean`. `st` holds the elements written so far,
the last one first. An empty element and `.` are dropped; `..` removes the last element
written, unless there is none left to remove (only `..` elements or nothing), in which case
it is dropped in a rooted path and kept otherwise; any other element is written. -/
def cleanStep (rooted : Bool) (st : List Str) (e : Str) : List Str :=
  if e = [] ∨ e = ['.'] then st
  else if e = ['.', '.'] then
    match st with
    | [] => if rooted then [] else [e]
    | top :: rest => if top = ['.', '.'] then (if rooted then st else e :: st) else rest
  else e :: st

/-- Model of `filepath.Clean` (Unix): the shortest path name equivalent to `p` by purely
lexical processing; the empty path becomes `.`. -/
def Clean (p : Str) : Str :=
  if p = [] then ['.']
  else
    let rooted : Bool := decide (p.head? = some pathSeparator)
    let st := (Split pathSeparator p).foldl (cleanStep rooted) []
    if rooted then pathSeparator :: joinPath st.reverse
    else if st = [] then ['.'] else joinPath st.reverse

/-- Model of `filepath.Join`: leading empty elements are ignored, the others are joined by
the separator and the result is cleaned; all elements empty gives the empty string. -/
def Join (elem : List Str) : Str :=
  match elem.dropWhile (fun e => e.isEmpty) with
  | [] => []
  | es => Clean (joinPath es)

/-- The text of a path after its last separator. -/
def lastElem (p : Str) : Str :=
  ((Split pathSeparator p).getLast?).getD []

/-- Model of `filepath.Rel(filepath.Dir(base), path)` for the path that `filepath.WalkDir`
builds from the cleaned `base` and the entry names `below` it: the last element of `base`
(none when `base` is `/` or `.`, which are their own parent) followed by the names, and `.`
when there is no element at all. -/
def relPath (base : Str) (below : List Str) : Str :=
  let first : List Str :=
    if base = [pathSeparator] ∨ base = ['.'] then [] else [lastElem base]
  match first ++ below with
  | [] => ['.']
  | comps => joinPath comps

/-- The path that `filepath.WalkDir` builds for the entry reached from the cleaned `base`
by the names `below`: `filepath.Join` applied name by name. -/
def absPath (base : Str) (below : List Str) : Str :=
  if below = [] then base
  else if base = [pathSeparator] then pathSeparator :: joinPath below
  else if base = ['.'] then joinPath below
  else base ++ pathSeparator :: joinPath below

/-! ## Machine integers -/

/-- Reduce to the range of `uint64`. -/
def wrapUint64 (x : Int) : Int := x % 18446744073709551616

/-- Reduce to the range of `int64` (two's complement). -/
def wrapInt64 (x : Int) : Int :=
  (x + 9223372036854775808) % 18446744073709551616 - 9223372036854775808

/-! ## `strconv.Atoi` -/

/-- The digit loop of `Atoi`: accumulate decimal digits, fail on any other character. -/
def parseDigits : Str → Nat → Option Nat
  | [], n => some n
  | c :: cs, n => if c.isDigit then parseDigits cs (n * 10 + (c.toNat - 48)) else none

/-- Model of `strconv.Atoi` on a 64-bit platform: an optional sign, then at least one
decimal digit and nothing else; the value must fit `int`. `none` stands for a non-nil
error (syntax or range). -/
def Atoi (s : Str) : Option Int :=
  match s with
  | [] => none
  | c :: cs =>
    let neg := c = '-'
    let ds := if c = '-' ∨ c = '+' then cs else s
    if ds = [] then none
    else
      match parseDigits ds 0 with
      | none => none
      | some n =>
        let v : Int := if neg then -(n : Int) else (n : Int)
        if -9223372036854775808 ≤ v ∧ v ≤ 9223372036854775807 then some v else none

/-! ## The `time` package -/

/-- A wall-clock `time.Time` in UTC without monotonic reading: `ext` is the signed
64-bit count of seconds since January 1, year 1, `nsec` the nanosecond field. -/
structure Time where
  ext : Int
  nsec : Int
deriving DecidableEq

def secondsPerDay : Int := 86400
def absoluteZeroYear : Int := -292277022399
def absoluteToInternal : Int := -9223371966579724800
def internalToAbsolute : Int := 9223371966579724800

/-- Library helper `norm`: returns `nhi, nlo` with `hi * base + lo == nhi * base + nlo`
and `0 <= nlo < base`. Both divisions act on non-negative operands. -/
def norm (hi lo base : Int) : Int × Int :=
  let p : Int × Int :=
    if lo < 0 then
      let n := (-lo - 1) / base + 1
      (wrapInt64 (hi - n), lo + n * base)
    else (hi, lo)
  if p.2 ≥ base then
    let n := p.2 / base
    (wrapInt64 (p.1 + n), p.2 - n * base)
  else p

/-- Library helper `isLeap` (the remainders are only compared with zero). -/
def isLeap (year : Int) : Bool :=
  year % 4 = 0 && (year % 100 ≠ 0 || year % 400 = 0)

/-- Library table `daysBefore`: days in a non-leap year before month `i + 1` starts. -/
def daysBefore (i : Int) : Int :=
  if i = 0 then 0 else if i = 1 then 31 else if i = 2 then 59 else if i = 3 then 90
  else if i = 4 then 120 else if i = 5 then 151 else if i = 6 then 181
  else if i = 7 then 212 else if i = 8 then 243 else if i = 9 then 273
  else if i = 10 then 304 else if i = 11 then 334 else 365

/-- Library helper `daysSinceEpoch`: days from the absolute epoch to the start of `year`. -/
def daysSinceEpoch (year : Int) : Int :=
  let y := wrapUint64 (year - absoluteZeroYear)
  let n400 := y / 400
  let y1 := y - 400 * n400
  let n100 := y1 / 100
  let y2 := y1 - 100 * n100
  let n4 := y2 / 4
  let y3 := y2 - 4 * n4
  wrapUint64 (146097 * n400 + 36524 * n100 + 1461 * n4 + 365 * y3)

/-- The absolute second count (a `uint64`) that `time.Date` computes for UTC. -/
def dateAbs (year month day hour min sec : Int) : Int :=
  let ym := norm year (wrapInt64 (month - 1)) 12
  let year := ym.1
  let month := ym.2 + 1
  let ms := norm min sec 60
  let hm := norm hour ms.1 60
  let dh := norm day hm.1 24
  let d := daysSinceEpoch year + daysBefore (month - 1)
    + (if isLeap year && month ≥ 3 then 1 else 0) + (dh.1 - 1)
  wrapUint64 (d * secondsPerDay + (dh.2 * 3600 + hm.2 * 60 + ms.2))

/-- Model of `time.Date(year, month, day, hour, min, sec, nsec, time.UTC)`. -/
def Date (year month day hour min sec nsec : Int) : Time :=
  let sn := norm sec nsec 1000000000
  { ext := wrapInt64 (dateAbs year month day hour min sn.1 + absoluteToInternal),
    nsec := sn.2 }

/-- Library method `Time.abs` for UTC: seconds since the absolute epoch, as `uint64`. -/
def Time.abs (t : Time) : Int := wrapUint64 (t.ext + internalToAbsolute)

/-- The cycle arithmetic of library helper `absDate`: from a day count since the
absolute epoch, the year count since the absolute epoch and the day within the year. -/
def absYday (d : Int) : Int × Int :=
  let n := d / 146097
  let y := 400 * n
  let d := d - 146097 * n
  let n := d / 36524
  let n := n - n / 4
  let y := y + 100 * n
  let d := d - 36524 * n
  let n := d / 1461
  let y := y + 4 * n
  let d := d - 1461 * n
  let n := d / 365
  let n := n - n / 4
  let y := y + n
  let d := d - 365 * n
  (y, d)

/-- The month and day part of library helper `absDate`: month and day of the month
from the year and the day within the year. -/
def ydayDate (year d : Int) : Int × Int :=
  if isLeap year ∧ d = 31 + 29 - 1 then (2, 29)
  else
    let day := if isLeap year ∧ d > 31 + 29 - 1 then d - 1 else d
    let month := day / 31
    let e := daysBefore (month + 1)
    if day ≥ e then (month + 2, day - e + 1)
    else (month + 1, day - daysBefore month + 1)

/-- Library helper `absDate`: year, month and day of an absolute second count. -/
def absDate (abs : Int) : Int × Int × Int :=
  let yd := absYday (abs / secondsPerDay)
  let year := yd.1 + absoluteZeroYear
  (year, ydayDate year yd.2)

def Time.Year (t : Time) : Int := (absDate t.abs).1
def Time.Month (t : Time) : Int := (absDate t.abs).2.1
def Time.Day (t : Time) : Int := (absDate t.abs).2.2
def Time.Hour (t : Time) : Int := t.abs % secondsPerDay / 3600
def Time.Minute (t : Time) : Int := t.abs % 3600 / 60
def Time.Second (t : Time) : Int := t.abs % 60
def Time.Nanosecond (t : Time) : Int := t.nsec

/-- Model of `Time.AddDate` for a UTC time. -/
def Time.AddDate (t : Time) (years months days : Int) : Time :=
  Date (wrapInt64 (t.Year + years)) (wrapInt64 (t.Month + months)) (wrapInt64 (t.Day + days))
    t.Hour t.Minute t.Second t.nsec

/-- Model of `Time.Before` for times without monotonic reading. -/
def Time.Before (t u : Time) : Bool :=
  t.ext < u.ext || (t.ext = u.ext && t.nsec < u.nsec)

/-- Days in a month of the proleptic Gregorian calendar. -/
def daysIn (year month : Int) : Int :=
  if month = 2 then (if isLeap year then 29 else 28)
  else if month = 4 ∨ month = 6 ∨ month = 9 ∨ month = 11 then 30 else 31

/-- A valid calendar date. -/
def validDate (year month day : Int) : Prop :=
  1 ≤ month ∧ month ≤ 12 ∧ 1 ≤ day ∧ day ≤ daysIn year month

instance (y m d : Int) : Decidable (validDate y m d) := by
  unfold validDate; infer_instance

/-- Day of the year (from zero) of a calendar date, as `time.Date` adds it up. -/
def yday (year month day : Int) : Int :=
  daysBefore (month - 1) + (if isLeap year && month ≥ 3 then 1 else 0) + (day - 1)

/-! ## The program -/

/-- Source: `Config`. The `Retention` map is an association list from tenant
identifier to days; a lookup finds the entry of a key, if any. -/
structure Config where
  Retention : List (Str × Int)

/-- Source: `options`. -/
structure options where
  root : Str
  configPath : Str
  execute : Bool
  workers : Int
  deletesPerSec : Int
  logEvery : Int
  targetCompany : Str
  nowUTC : Time

/-- Source: `retentionFor`. A lookup of a missing key in a Go map yields zero. -/
def retentionFor (companyID : Str) (cfg : Config) : Int :=
  match cfg.Retention.lookup companyID with
  | some days => days
  | none => (cfg.Retention.lookup "default".toList).getD 0

/-- Source: `parseTimestampFromParts`; `none` stands for `ok == false`. -/
def parseTimestampFromParts (year month day hour minute : Str) : Option Time :=
  match Atoi year, Atoi month, Atoi day, Atoi hour, Atoi minute with
  | some y, some m, some d, some h, some min => some (Date y m d h min 0 0)
  | _, _, _, _, _ => none

/-- What a walk callback returns: `nil` (descend) or `fs.SkipDir` (prune). -/
inductive WalkResult where
  | nil
  | SkipDir
deriving DecidableEq

/-- The calls a walk makes to its two callbacks, in order: `onCandidate(path)` and
`onProgress()`. -/
inductive Event where
  | candidate (path : Str)
  | progress
deriving DecidableEq

/-- Source: the callback that `walkCompany` hands to `walkDirOnly` (the `switch` on
`len(relParts)`), returning the callback calls it makes and its result. -/
def walkCompanyCallback (cutoff : Time) (path : Str) (relParts : List Str) :
    List Event × WalkResult :=
  match relParts with
  | [_] => ([], WalkResult.nil)
  | [_, _] => ([], WalkResult.nil)
  | [_, _, _] => ([], WalkResult.nil)
  | [_, _, _, _] => ([], WalkResult.nil)
  | [_, _, _, _, _] => ([], WalkResult.nil)
  | [_, _, _, _, _, _] => ([], WalkResult.nil)
  | [_, _, year, month, day, hour, minute] =>
    match parseTimestampFromParts year month day hour minute with
    | none => ([], WalkResult.nil)
    | some ts =>
      ((if ts.Before cutoff then [Event.candidate path] else []) ++ [Event.progress],
        WalkResult.SkipDir)
  | _ => ([], WalkResult.SkipDir)

/-- A directory tree: plain files, and directories with their name, whether `os.ReadDir`
succeeds on them, and their entries in reading order. -/
inductive Node where
  | file : Str → Node
  | dir : Str → Bool → List Node → Node

/-- Name of a directory entry. -/
def Node.name : Node → Str
  | Node.file n => n
  | Node.dir n _ _ => n

/-- What the operating system answers to the program: `readRoot` is the result of
`os.ReadDir(opt.root)` (the entries, or `none` for an error), `lstat p` the entry that a
walk started at the path `p` finds there (`none` when `os.Lstat` fails). -/
structure FileSystem where
  readRoot : Option (List Node)
  lstat : Str → Option Node

mutual
/-- Source: `walkDirOnly` (the function it hands to `filepath.WalkDir`) at the entry reached
from the cleaned `base` by the names `below`. Files are skipped. For a directory the parts
are `splitClean` of its path relative to the parent of `base`; with fewer parts than
`minDepth` the callback is not called and the walk goes on. The directory is entered unless
the callback returns `fs.SkipDir`; when it cannot be read, the second call (with the error)
warns and skips it. -/
def walkNode (base : Str) (minDepth : Nat) (cb : Str → List Str → List Event × WalkResult)
    (below : List Str) : Node → List Event
  | Node.file _ => []
  | Node.dir _ readable kids =>
    let parts := splitClean (relPath base below)
    let r : List Event × WalkResult :=
      if parts.length < minDepth then ([], WalkResult.nil) else cb (absPath base below) parts
    match r with
    | (evs, WalkResult.nil) =>
      if readable then evs ++ walkKids base minDepth cb below kids else evs
    | (evs, WalkResult.SkipDir) => evs
/-- The entries of a directory, walked in order. -/
def walkKids (base : Str) (minDepth : Nat) (cb : Str → List Str → List Event × WalkResult)
    (below : List Str) : List Node → List Event
  | [] => []
  | k :: ks =>
    walkNode base minDepth cb (below ++ [k.name]) k ++ walkKids base minDepth cb below ks
end

/-- Source: `walkDirOnly`. `found` is the entry at `base`; when `os.Lstat` fails the
function is called once with the error, warns and returns `nil`. -/
def walkDirOnly (base : Str) (minDepth : Nat) (cb : Str → List Str → List Event × WalkResult)
    (found : Option Node) : List Event :=
  match found with
  | none => []
  | some n => walkNode (Clean base) minDepth cb [] n

/-- The cutoff instant that `walkCompany` computes for a tenant. -/
def cutoffFor (opt : options) (cfg : Config) (companyID : Str) : Time :=
  opt.nowUTC.AddDate 0 0 (wrapInt64 (-(retentionFor companyID cfg)))

/-- Source: `walkCompany`; `found` is the entry at `companyPath`. -/
def walkCompany (opt : options) (cfg : Config) (companyID companyPath : Str)
    (found : Option Node) : List Event :=
  walkDirOnly companyPath 1 (walkCompanyCallback (cutoffFor opt cfg companyID)) found

/-- Source: `walkCompanies`. With a company filter the walk starts at
`filepath.Join(opt.root, opt.targetCompany)`; without, every directory among the entries of
the root is walked, and a read error of the root is returned (`none`). -/
def walkCompanies (opt : options) (cfg : Config) (fs : FileSystem) : Option (List Event) :=
  if opt.targetCompany ≠ [] then
    some (walkCompany opt cfg opt.targetCompany (Join [opt.root, opt.targetCompany])
      (fs.lstat (Join [opt.root, opt.targetCompany])))
  else
    match fs.readRoot with
    | none => none
    | some entries =>
      some (entries.flatMap fun e =>
        match e with
        | Node.dir companyID _ _ =>
          walkCompany opt cfg companyID (Join [opt.root, companyID]) (some e)
        | Node.file _ => [])

/-! ## Notions used to state the properties -/

/-- A single path component as the walker expects it: not empty, not `"."`, free of the
separator and without white space at either end. -/
def cleanName (n : Str) : Prop :=
  n ≠ [] ∧ n ≠ ['.'] ∧ pathSeparator ∉ n ∧ TrimSpace n = n

instance (n : Str) : Decidable (cleanName n) := by
  unfold cleanName; infer_instance

/-- A name that can stand for a tenant directory in a path: a clean path component that is
not `..` either. -/
def plainName (n : Str) : Prop :=
  cleanName n ∧ n ≠ ['.', '.']

instance (n : Str) : Decidable (plainName n) := by
  unfold plainName; infer_instance

/-- A numeric component: an optional sign followed by decimal digits, at least one. -/
def isNumeric (s : Str) : Bool :=
  match s with
  | [] => false
  | c :: cs =>
    let ds := if c = '-' ∨ c = '+' then cs else s
    !ds.isEmpty && ds.all Char.isDigit

/-- The decimal numerals of a natural number: its digits, most significant first,
after any number of leading zeros. -/
def isDecimalOf (s : Str) (n : Nat) : Prop :=
  ∃ k : Nat, s = List.replicate k '0' ++ ((Nat.digits 10 n).reverse.map Nat.digitChar) ∧
    0 < s.length

/-- The two shapes of a cleaned path that ends in the name `T`. -/
def endsIn (T : Str) (p : Str) : Prop :=
  ∃ xs : List Str, (∀ x ∈ xs, pathSeparator ∉ x) ∧
    (p = pathSeparator :: joinPath (xs ++ [T]) ∨ p = joinPath (xs ++ [T]))

/-! ## A worked scenario

Tenant `1001` holds two minute directories, dated 40 and 10 days before the reference
instant 2024-06-15 12:00:00 UTC. -/

/-- The reference instant 2024-06-15 12:00:00 UTC. -/
def exNow : Time := { ext := 63854049600, nsec := 0 }

def exOpts : options :=
  { root := "/data".toList, configPath := "./config.json".toList, execute := false,
    workers := 1, deletesPerSec := 0, logEvery := 1000, targetCompany := [], nowUTC := exNow }

def exPolicy60 : Config := ⟨[("default".toList, 30), ("1001".toList, 60)]⟩

def exPolicy30 : Config := ⟨[("default".toList, 30)]⟩

/-- The device directory `dev` of the scenario: `dev/2024/05/06/12/00` and
`dev/2024/06/05/12/00`. -/
def exDevice : Node :=
  Node.dir "dev".toList true [Node.dir "2024".toList true
    [Node.dir "05".toList true [Node.dir "06".toList true [Node.dir "12".toList true
        [Node.dir "00".toList true [Node.file "data.bin".toList]]]],
     Node.dir "06".toList true [Node.dir "05".toList true [Node.dir "12".toList true
        [Node.dir "00".toList true [Node.file "data.bin".toList]]]]]]

/-- The entries of the data root: the one tenant directory `1001` with its device. -/
def exTree : List Node := [Node.dir "1001".toList true [exDevice]]

/-- The file system of the scenario, with the data root at `/data`. -/
def exFS : FileSystem :=
  { readRoot := some exTree,
    lstat := fun p =>
      if p = "/data/1001".toList then exTree.head?
      else if p = "/data/1001/dev".toList then some exDevice
      else none }

/-- The tenant directory `1001/ /2020/01/01/00/00`, whose second level is named by a
blank: the directory `00` at its end is at depth 7. -/
def exBlankTenant : Node :=
  Node.dir "1001".toList true [Node.dir " ".toList true [Node.dir "2020".toList true
    [Node.dir "01".toList true [Node.dir "01".toList true [Node.dir "00".toList true
      [Node.dir "00".toList true []]]]]]]

/-- A data root with a directory whose name is a blank: `1001/dev/ /2020/01/01/00/00`.
Its only minute-level directory (depth 7) is `1001/dev/ /2020/01/01/00`. -/
def exBlankFS : FileSystem :=
  { readRoot := some
      [Node.dir "1001".toList true [Node.dir "dev".toList true [Node.dir " ".toList true
        [Node.dir "2020".toList true [Node.dir "01".toList true [Node.dir "01".toList true
          [Node.dir "00".toList true [Node.dir "00".toList true []]]]]]]]],
    lstat := fun _ => none }

/-- The scenario with the device directory unreadable. -/
def exUnreadableFS : FileSystem :=
  { readRoot := some [Node.dir "1001".toList true
      [match exDevice with
       | Node.dir name _ kids => Node.dir name false kids
       | Node.file name => Node.file name]],
    lstat := fun _ => none }

/-- A data root `1001/dev/x/2020/01/01/00/00`, one level deeper than the layout: its only
minute-level directory (depth 7) is `1001/dev/x/2020/01/01/00`. -/
def exDeepDevice : Node :=
  Node.dir "dev".toList true [Node.dir "x".toList true [Node.dir "2020".toList true
    [Node.dir "01".toList true [Node.dir "01".toList true [Node.dir "00".toList true
      [Node.dir "00".toList true []]]]]]]

def exDeepFS : FileSystem :=
  { readRoot := some [Node.dir "1001".toList true [exDeepDevice]],
    lstat := fun p => if p = "/data/1001/dev".toList then some exDeepDevice else none }

/-- The callback calls of the walk over the scenario with the default of 30 days. -/
def exEvents : List Event :=
  [Event.candidate "/data/1001/dev/2024/05/06/12/00".toList, Event.progress, Event.progress]

/-! ## The run: walker, job queue and workers

`main` starts `opt.workers` worker goroutines, then walks the tree in its own goroutine,
closes the `jobs` channel and waits for the workers. The run is modelled by explicit state
passing: a schedule is a list of actions, each naming the goroutine that takes its next
atomic step (and, for a deletion, what `os.RemoveAll` does). An action that is blocked
(a send on the full channel, a receive on the empty open channel) yields `none`.
The rate limiter only delays a worker and the context is never cancelled; neither changes
the state. The counters never reach 2^64 and are natural numbers. -/

/-- A worker goroutine: at the top of its `range jobs` loop, holding a path it has
received, or returned. -/
inductive Worker where
  | idle
  | busy (path : Str)
  | exited
deriving DecidableEq

/-- What `os.RemoveAll` does when called: the file system afterwards and whether it
reports an error. -/
structure RemoveOutcome where
  fs : FileSystem
  err : Bool

/-- The state of a run. `pending` are the callback calls that the walk has yet to make,
`sending` is a path that `onCandidate` has counted and is about to send on `jobs`. -/
structure RunState where
  pending : List Event
  sending : Option Str
  closed : Bool
  jobs : List Str
  workers : List Worker
  scanned : Nat
  candidates : Nat
  deleted : Nat
  failed : Nat
  fs : FileSystem

/-- One atomic step of one goroutine. -/
inductive Action where
  | walker
  | receive (i : Nat)
  | process (i : Nat) (out : RemoveOutcome)

/-- Capacity of the `jobs` channel. -/
def jobsCapacity : Nat := 1024

/-- The state in which `main` starts the walk: workers started, counters zero. -/
def initState (opt : options) (events : List Event) (fs : FileSystem) : RunState :=
  { pending := events, sending := none, closed := false, jobs := [],
    workers := List.replicate opt.workers.toNat Worker.idle,
    scanned := 0, candidates := 0, deleted := 0, failed := 0, fs := fs }

/-- Source: `main`, one step. The walker goroutine runs `onCandidate` (count, then send),
`onProgress` (count) and finally `close(jobs)`; a worker receives a path or leaves its loop
on the closed, drained channel, and handles a received path (dry-run: count it as deleted;
otherwise `os.RemoveAll`, counted as deleted or failed). -/
def step (opt : options) (s : RunState) : Action → Option RunState
  | Action.walker =>
    match s.sending with
    | some p =>
      if s.jobs.length < jobsCapacity then some { s with sending := none, jobs := s.jobs ++ [p] }
      else none
    | none =>
      match s.pending with
      | Event.candidate p :: rest =>
        some { s with pending := rest, candidates := s.candidates + 1, sending := some p }
      | Event.progress :: rest => some { s with pending := rest, scanned := s.scanned + 1 }
      | [] => if s.closed then none else some { s with closed := true }
  | Action.receive i =>
    match s.workers[i]? with
    | some Worker.idle =>
      match s.jobs with
      | p :: rest => some { s with jobs := rest, workers := s.workers.set i (Worker.busy p) }
      | [] =>
        if s.closed then some { s with workers := s.workers.set i Worker.exited } else none
    | _ => none
  | Action.process i out =>
    match s.workers[i]? with
    | some (Worker.busy _) =>
      if !opt.execute then
        some { s with deleted := s.deleted + 1, workers := s.workers.set i Worker.idle }
      else if out.err then
        some { s with fs := out.fs, failed := s.failed + 1,
                      workers := s.workers.set i Worker.idle }
      else
        some { s with fs := out.fs, deleted := s.deleted + 1,
                      workers := s.workers.set i Worker.idle }
    | _ => none

/-- Run a schedule from a state. -/
def run (opt : options) (s : RunState) : List Action → Option RunState
  | [] => some s
  | a :: rest =>
    match step opt s a with
    | some s1 => run opt s1 rest
    | none => none

/-- The point at which `wg.Wait()` returns with the queue drained: the channel is closed
and empty and every worker has returned. -/
def RunState.finished (s : RunState) : Bool :=
  s.closed && s.jobs.isEmpty && s.workers.all (fun w => w == Worker.exited)

/-- The point at which `wg.Wait()` returns and `main` reports: the channel is closed and
every worker has returned. -/
def RunState.returned (s : RunState) : Bool :=
  s.closed && s.workers.all (fun w => w == Worker.exited)

/-- Is the event a call of `onCandidate`. -/
def Event.isCandidate : Event → Bool
  | Event.candidate _ => true
  | Event.progress => false

/-- Is the event a call of `onProgress`. -/
def Event.isProgress : Event → Bool
  | Event.candidate _ => false
  | Event.progress => true

/-- The `candidates` counter after the walker has made the given calls. -/
def candidatesAfter (evs : List Event) : Nat := evs.countP Event.isCandidate

/-- The `scanned` counter after the walker has made the given calls. -/
def scannedAfter (evs : List Event) : Nat := evs.countP Event.isProgress

/-- A call sequence in which every `onCandidate` has been followed by its `onProgress`:
the walker is between two visits of the callback. -/
def paired : List Event → Bool
  | [] => true
  | Event.progress :: rest => paired rest
  | Event.candidate _ :: Event.progress :: rest => paired rest
  | Event.candidate _ :: _ => false

/-- The number of paths a worker holds: one while it handles a received path. -/
def Worker.holding : Worker → Nat
  | Worker.busy _ => 1
  | _ => 0

/-- The candidates that have been counted and not yet handled: on their way into the
channel, in the channel, or held by a worker. -/
def RunState.inFlight (s : RunState) : Nat :=
  (if s.sending.isSome then 1 else 0) + s.jobs.length + (s.workers.map Worker.holding).sum

/-- The steps a worker still has to take when the channel is closed and empty: an idle
worker one (leave the loop), a busy worker two, a worker that has returned none. -/
def Worker.weight : Worker → Nat
  | Worker.idle => 1
  | Worker.busy _ => 2
  | Worker.exited => 0

/-- The number of steps that remain in a run: every step of `step` lowers it by one. -/
def RunState.measure (s : RunState) : Nat :=
  4 * candidatesAfter s.pending + scannedAfter s.pending + (if s.sending.isSome then 3 else 0)
    + 2 * s.jobs.length + (s.workers.map Worker.weight).sum + (if s.closed then 0 else 1)

/-- The schedule that handles the walker's calls one after the other with worker 0,
in dry-run mode or with the given outcome of every `os.RemoveAll`. -/
def serialSchedule (out : RemoveOutcome) : List Event → List Action
  | [] => []
  | Event.candidate _ :: rest =>
    Action.walker :: Action.walker :: Action.receive 0 :: Action.process 0 out ::
      serialSchedule out rest
  | Event.progress :: rest => Action.walker :: serialSchedule out rest

/-- The schedule in which the workers `k`, `k + 1`, ... `k + n - 1` each take one receive
step. -/
def receiveAll (k : Nat) : Nat → List Action
  | 0 => []
  | n + 1 => Action.receive k :: receiveAll (k + 1) n

/-- A complete schedule for a run with `n` workers: the serial schedule, `close(jobs)`, and
every worker leaving its loop. -/
def completeSchedule (out : RemoveOutcome) (events : List Event) (n : Nat) : List Action :=
  serialSchedule out events ++ Action.walker :: receiveAll 0 n

/-! ## Minute-level directories -/

mutual
/-- The minute-level directories at or below an entry: the name lists, from the tenant
directory down, of the directories at depth 7. `names` are the names down to the entry
itself. -/
def minuteDirs (names : List Str) : Node → List (List Str)
  | Node.file _ => []
  | Node.dir _ _ kids =>
    if names.length = 7 then [names]
    else if names.length < 7 then minuteDirsKids names kids
    else []
/-- The minute-level directories at or below the entries of the directory `names`. -/
def minuteDirsKids (names : List Str) : List Node → List (List Str)
  | [] => []
  | k :: ks => minuteDirs (names ++ [k.name]) k ++ minuteDirsKids names ks
end

/-- The cutoff predicate on a minute-level directory: its last five names decode to an
instant strictly before the cutoff. -/
def isExpired (cutoff : Time) (names : List Str) : Bool :=
  match names with
  | [_, _, year, month, day, hour, minute] =>
    match parseTimestampFromParts year month day hour minute with
    | some ts => ts.Before cutoff
    | none => false
  | _ => false

/-- The names from the data root down to the directory that a company filter denotes (for
a filter that stays below the data root). -/
def targetNames (target : Str) : List Str :=
  ((Split pathSeparator target).foldl (cleanStep false) []).reverse

/-- A directory that a run walks: the company identifier that selects the retention, the
names from the data root down to the directory, and the directory. -/
structure Tenant where
  companyID : Str
  names : List Str
  node : Node

/-- The directories that a run walks: the one that the company filter denotes, or all
directories among the entries of the data root. -/
def tenantsOf (opt : options) (fs : FileSystem) : List Tenant :=
  if opt.targetCompany ≠ [] then
    (fs.lstat (Join [opt.root, opt.targetCompany])).toList.map
      (fun n => ⟨opt.targetCompany, targetNames opt.targetCompany, n⟩)
  else
    (fs.readRoot.getD []).filterMap fun e =>
      match e with
      | Node.dir companyID _ _ => some ⟨companyID, [companyID], e⟩
      | Node.file _ => none

/-- The number of minute-level directories at or below the walked directories that satisfy
the cutoff predicate of their tenant. -/
def expiredCount (opt : options) (cfg : Config) (fs : FileSystem) : Nat :=
  ((tenantsOf opt fs).map fun t =>
    ((minuteDirs t.names t.node).filter (isExpired (cutoffFor opt cfg t.companyID))).length).sum

/-- A directory has a clean name; nothing is asked of a file. -/
def Node.cleanDir : Node → Bool
  | Node.file _ => true
  | Node.dir name _ _ => decide (cleanName name)

mutual
/-- Below an entry at the given depth (tenant directory: 1), every directory down to the
minute level (depth 7) has a clean name, and every directory above the minute level can be
read. -/
def regularTree (depth : Nat) : Node → Bool
  | Node.file _ => true
  | Node.dir _ readable kids =>
    decide (7 ≤ depth) || (readable && regularKids (depth + 1) kids)
/-- The entries, at the given depth, are directories with clean names, regular below. -/
def regularKids (depth : Nat) : List Node → Bool
  | [] => true
  | k :: ks => k.cleanDir && regularTree depth k && regularKids depth ks
end

/-- Every walked directory is a tenant directory named by a plain name (so the company
filter, when set, is the name of a tenant), and regular below. -/
def regularRun (opt : options) (fs : FileSystem) : Bool :=
  (tenantsOf opt fs).all fun t =>
    decide (plainName t.companyID) && decide (t.names = [t.companyID]) && regularTree 1 t.node

/-- The paths handed to `onCandidate` in a call sequence, in order. -/
def candidatePaths (evs : List Event) : List Str :=
  evs.filterMap fun e =>
    match e with
    | Event.candidate p => some p
    | Event.progress => none

/-- The invariant of a run that was started on the call sequence `events`. -/
structure Inv (events : List Event) (s : RunState) : Prop where
  flight : s.candidates = s.deleted + s.failed + s.inFlight
  counted : s.candidates + candidatesAfter s.pending = candidatesAfter events
  closed : s.closed = true → s.pending = [] ∧ s.sending = none

/-- What stays true of the workers during a run: their number is fixed, and once a worker
has returned the channel is closed and empty. -/
structure WInv (opt : options) (s : RunState) : Prop where
  size : s.workers.length = opt.workers.toNat
  gone : Worker.exited ∈ s.workers → s.closed = true ∧ s.jobs = []
  closed : s.closed = true → s.pending = [] ∧ s.sending = none

/-! # Theorems -/

/-! ## Arithmetic of the calendar -/

theorem norm_id (hi lo base : Int) (h0 : 0 ≤ lo) (h1 : lo < base) :
    norm hi lo base = (hi, lo) := by
  unfold norm
  simp only [show ¬ (lo < 0) from by omega, if_false, ge_iff_le, show ¬ (base ≤ lo) from by omega]

theorem wrapUint64_id (x : Int) (h0 : 0 ≤ x) (h1 : x < 18446744073709551616) :
    wrapUint64 x = x := by
  unfold wrapUint64; omega

theorem wrapInt64_id (x : Int) (h0 : -9223372036854775808 ≤ x) (h1 : x ≤ 9223372036854775807) :
    wrapInt64 x = x := by
  unfold wrapInt64; omega

theorem abs_of_wrap (a : Int) (h0 : 0 ≤ a) (h1 : a < 18446744073709551616) :
    wrapUint64 (wrapInt64 (a + absoluteToInternal) + internalToAbsolute) = a := by
  unfold wrapUint64 wrapInt64 absoluteToInternal internalToAbsolute; omega

theorem div_cut (q r m k : Int) (hm : 0 < m) (hr0 : 0 ≤ r)
    (hr : r ≤ m) (hrm : r = m → q = k - 1) (x : Int) (hx : x = m * q + r) (n : Int)
    (hn : n = x / m) : (n = q ∧ r < m) ∨ (n = k ∧ r = m ∧ q = k - 1) := by
  subst hx
  rcases lt_or_eq_of_le hr with h | h
  · left
    refine ⟨?_, h⟩
    rw [hn, Int.add_comm, Int.add_mul_ediv_left _ _ (ne_of_gt hm), Int.ediv_eq_zero_of_lt hr0 h]
    simp
  · right
    have hq := hrm h
    refine ⟨?_, h, hq⟩
    rw [hn, h, hq]
    have : m * (k - 1) + m = m * k := by ring
    rw [this, Int.mul_ediv_cancel_left _ (ne_of_gt hm)]

theorem absYday_cycles (a b c e yd : Int) (hb0 : 0 ≤ b) (hb : b ≤ 3)
    (hc0 : 0 ≤ c) (hc : c ≤ 24) (he0 : 0 ≤ e) (he : e ≤ 3) (h0 : 0 ≤ yd) (h1 : yd ≤ 365)
    (hl : yd = 365 → e = 3 ∧ (c ≠ 24 ∨ b = 3)) :
    absYday (146097 * a + 36524 * b + 1461 * c + 365 * e + yd)
      = (400 * a + 100 * b + 4 * c + e, yd) := by
  have e1 : (146097 * a + 36524 * b + 1461 * c + 365 * e + yd) / 146097 = a := by
    have : 146097 * a + 36524 * b + 1461 * c + 365 * e + yd
        = (36524 * b + 1461 * c + 365 * e + yd) + 146097 * a := by ring
    rw [this, Int.add_mul_ediv_left _ _ (by norm_num), Int.ediv_eq_zero_of_lt (by omega) (by omega)]
    simp
  have e2 : (36524 * b + 1461 * c + 365 * e + yd) / 36524
      - (36524 * b + 1461 * c + 365 * e + yd) / 36524 / 4 = b := by
    rcases div_cut b (1461 * c + 365 * e + yd) 36524 4 (by norm_num)
      (by omega) (by omega) (by omega) (36524 * b + 1461 * c + 365 * e + yd) (by ring) _ rfl with
      ⟨h, _⟩ | ⟨h, _, _⟩
    · rw [h]; omega
    · rw [h]; omega
  have e3 : (1461 * c + 365 * e + yd) / 1461 = c := by
    have : 1461 * c + 365 * e + yd = (365 * e + yd) + 1461 * c := by ring
    rw [this, Int.add_mul_ediv_left _ _ (by norm_num), Int.ediv_eq_zero_of_lt (by omega) (by omega)]
    simp
  have e4 : (365 * e + yd) / 365 - (365 * e + yd) / 365 / 4 = e := by
    rcases div_cut e yd 365 4 (by norm_num)
      (by omega) (by omega) (by omega) (365 * e + yd) (by ring) _ rfl with ⟨h, _⟩ | ⟨h, _, _⟩
    · rw [h]; omega
    · rw [h]; omega
  unfold absYday
  simp only [e1]
  have s1 : 146097 * a + 36524 * b + 1461 * c + 365 * e + yd - 146097 * a
      = 36524 * b + 1461 * c + 365 * e + yd := by ring
  simp only [s1, e2]
  have s2 : 36524 * b + 1461 * c + 365 * e + yd - 36524 * b = 1461 * c + 365 * e + yd := by ring
  simp only [s2, e3]
  have s3 : 1461 * c + 365 * e + yd - 1461 * c = 365 * e + yd := by ring
  simp only [s3, e4]
  have s4 : 365 * e + yd - 365 * e = yd := by ring
  simp only [s4]

/-- The decomposition of a year into 400-, 100-, 4- and 1-year cycles that
`daysSinceEpoch` computes, with the leap-year rule expressed on the digits. -/
theorem daysSinceEpoch_cycles (y : Int) (hy : absoluteZeroYear ≤ y)
    (hy2 : y ≤ 18446744073709551615 + absoluteZeroYear) :
    ∃ a b c e : Int, 0 ≤ a ∧ 0 ≤ b ∧ b ≤ 3 ∧ 0 ≤ c ∧ c ≤ 24 ∧ 0 ≤ e ∧ e ≤ 3 ∧
      y - absoluteZeroYear = 400 * a + 100 * b + 4 * c + e ∧
      daysSinceEpoch y = wrapUint64 (146097 * a + 36524 * b + 1461 * c + 365 * e) ∧
      (isLeap y = true ↔ e = 3 ∧ (c ≠ 24 ∨ b = 3)) := by
  have hw : wrapUint64 (y - absoluteZeroYear) = y - absoluteZeroYear :=
    wrapUint64_id _ (by omega) (by omega)
  refine ⟨(y - absoluteZeroYear) / 400,
    ((y - absoluteZeroYear) - 400 * ((y - absoluteZeroYear) / 400)) / 100,
    ((y - absoluteZeroYear) - 400 * ((y - absoluteZeroYear) / 400)
      - 100 * (((y - absoluteZeroYear) - 400 * ((y - absoluteZeroYear) / 400)) / 100)) / 4,
    ((y - absoluteZeroYear) - 400 * ((y - absoluteZeroYear) / 400)
      - 100 * (((y - absoluteZeroYear) - 400 * ((y - absoluteZeroYear) / 400)) / 100))
      - 4 * (((y - absoluteZeroYear) - 400 * ((y - absoluteZeroYear) / 400)
      - 100 * (((y - absoluteZeroYear) - 400 * ((y - absoluteZeroYear) / 400)) / 100)) / 4),
    ?_, ?_, ?_, ?_, ?_, ?_, ?_, ?_, ?_, ?_⟩
  all_goals first
    | (simp only [absoluteZeroYear] at *; omega)
    | skip
  · simp only [daysSinceEpoch, hw]
  · simp only [isLeap, absoluteZeroYear, Bool.and_eq_true, Bool.or_eq_true, decide_eq_true_eq,
      ne_eq] at *
    omega

theorem yday_bounds (y m d : Int) (hv : validDate y m d) :
    0 ≤ yday y m d ∧ yday y m d ≤ 365 ∧ (yday y m d = 365 → isLeap y = true) := by
  obtain ⟨h1, h2, h3, h4⟩ := hv
  have hm : m = 1 ∨ m = 2 ∨ m = 3 ∨ m = 4 ∨ m = 5 ∨ m = 6 ∨ m = 7 ∨ m = 8 ∨ m = 9 ∨ m = 10 ∨
      m = 11 ∨ m = 12 := by omega
  cases hl : isLeap y <;>
    rcases hm with h | h | h | h | h | h | h | h | h | h | h | h <;>
    subst h <;> simp [daysIn, hl] at h4 <;> simp [yday, daysBefore, hl] <;> omega

theorem ydayDate_aux (L : Bool) (x : Int) (m d : Int)
    (h : (m = 1 ∧ x = d - 1 ∧ 1 ≤ d ∧ d ≤ 31) ∨
         (m = 2 ∧ x = 31 + d - 1 ∧ 1 ≤ d ∧ d ≤ (if L then 29 else 28)) ∨
         (m = 3 ∧ x = 59 + (if L then 1 else 0) + d - 1 ∧ 1 ≤ d ∧ d ≤ 31) ∨
         (m = 4 ∧ x = 90 + (if L then 1 else 0) + d - 1 ∧ 1 ≤ d ∧ d ≤ 30) ∨
         (m = 5 ∧ x = 120 + (if L then 1 else 0) + d - 1 ∧ 1 ≤ d ∧ d ≤ 31) ∨
         (m = 6 ∧ x = 151 + (if L then 1 else 0) + d - 1 ∧ 1 ≤ d ∧ d ≤ 30) ∨
         (m = 7 ∧ x = 181 + (if L then 1 else 0) + d - 1 ∧ 1 ≤ d ∧ d ≤ 31) ∨
         (m = 8 ∧ x = 212 + (if L then 1 else 0) + d - 1 ∧ 1 ≤ d ∧ d ≤ 31) ∨
         (m = 9 ∧ x = 243 + (if L then 1 else 0) + d - 1 ∧ 1 ≤ d ∧ d ≤ 30) ∨
         (m = 10 ∧ x = 273 + (if L then 1 else 0) + d - 1 ∧ 1 ≤ d ∧ d ≤ 31) ∨
         (m = 11 ∧ x = 304 + (if L then 1 else 0) + d - 1 ∧ 1 ≤ d ∧ d ≤ 30) ∨
         (m = 12 ∧ x = 334 + (if L then 1 else 0) + d - 1 ∧ 1 ≤ d ∧ d ≤ 31)) :
    (if L = true ∧ x = 31 + 29 - 1 then ((2 : Int), (29 : Int))
     else
      if (if L = true ∧ x > 31 + 29 - 1 then x - 1 else x)
          ≥ daysBefore ((if L = true ∧ x > 31 + 29 - 1 then x - 1 else x) / 31 + 1) then
        ((if L = true ∧ x > 31 + 29 - 1 then x - 1 else x) / 31 + 2,
          (if L = true ∧ x > 31 + 29 - 1 then x - 1 else x)
            - daysBefore ((if L = true ∧ x > 31 + 29 - 1 then x - 1 else x) / 31 + 1) + 1)
      else
        ((if L = true ∧ x > 31 + 29 - 1 then x - 1 else x) / 31 + 1,
          (if L = true ∧ x > 31 + 29 - 1 then x - 1 else x)
            - daysBefore ((if L = true ∧ x > 31 + 29 - 1 then x - 1 else x) / 31) + 1)) = (m, d) := by
  cases L
  · simp only [Bool.false_eq_true, false_and, if_false, add_zero] at *
    have hq : x / 31 = 0 ∨ x / 31 = 1 ∨ x / 31 = 2 ∨ x / 31 = 3 ∨ x / 31 = 4 ∨ x / 31 = 5 ∨
        x / 31 = 6 ∨ x / 31 = 7 ∨ x / 31 = 8 ∨ x / 31 = 9 ∨ x / 31 = 10 ∨ x / 31 = 11 := by omega
    rcases hq with q | q | q | q | q | q | q | q | q | q | q | q <;>
      simp only [q, daysBefore] <;> norm_num <;> split_ifs <;>
      simp only [Prod.mk.injEq] <;> omega
  · simp only [true_and, if_true] at *
    by_cases h59 : x = 31 + 29 - 1
    · simp only [h59, if_true, Prod.mk.injEq]
      omega
    · simp only [h59, if_false]
      by_cases hgt : x > 31 + 29 - 1
      · simp only [hgt, if_true]
        have hq : (x - 1) / 31 = 1 ∨ (x - 1) / 31 = 2 ∨ (x - 1) / 31 = 3 ∨
            (x - 1) / 31 = 4 ∨ (x - 1) / 31 = 5 ∨ (x - 1) / 31 = 6 ∨ (x - 1) / 31 = 7 ∨
            (x - 1) / 31 = 8 ∨ (x - 1) / 31 = 9 ∨ (x - 1) / 31 = 10 ∨ (x - 1) / 31 = 11 := by
          omega
        rcases hq with q | q | q | q | q | q | q | q | q | q | q <;>
          simp only [q, daysBefore] <;> norm_num <;> split_ifs <;>
          simp only [Prod.mk.injEq] <;> omega
      · simp only [hgt, if_false]
        have hq : x / 31 = 0 ∨ x / 31 = 1 := by omega
        rcases hq with q | q <;>
          simp only [q, daysBefore] <;> norm_num <;> split_ifs <;>
          simp only [Prod.mk.injEq] <;> omega

theorem ydayDate_yday (y m d : Int) (hv : validDate y m d) :
    ydayDate y (yday y m d) = (m, d) := by
  obtain ⟨h1, h2, h3, h4⟩ := hv
  have hm : m = 1 ∨ m = 2 ∨ m = 3 ∨ m = 4 ∨ m = 5 ∨ m = 6 ∨ m = 7 ∨ m = 8 ∨ m = 9 ∨ m = 10 ∨
      m = 11 ∨ m = 12 := by omega
  unfold ydayDate
  apply ydayDate_aux
  rcases hm with h | h | h | h | h | h | h | h | h | h | h | h <;>
    subst h <;> simp [daysIn] at h4 <;> simp [yday, daysBefore] <;>
    omega

/-- The absolute second count of a valid date and time of day, without wrap-around. -/
theorem dateAbs_valid (y m d h mi s : Int) (hy : absoluteZeroYear ≤ y) (hy2 : y ≤ 292277026853)
    (hv : validDate y m d) (hh0 : 0 ≤ h) (hh : h < 24) (hm0 : 0 ≤ mi) (hm : mi < 60)
    (hs0 : 0 ≤ s) (hs : s < 60) :
    dateAbs y m d h mi s = (daysSinceEpoch y + yday y m d) * 86400 + (h * 3600 + mi * 60 + s) ∧
    0 ≤ daysSinceEpoch y + yday y m d ∧ daysSinceEpoch y + yday y m d ≤ 213503982334600 ∧
    absYday (daysSinceEpoch y + yday y m d) = (y - absoluteZeroYear, yday y m d) := by
  obtain ⟨a, b, c, e, ha, hb0, hb, hc0, hc, he0, he, hY, hd, hl⟩ :=
    daysSinceEpoch_cycles y hy (by simp only [absoluteZeroYear] at *; omega)
  obtain ⟨hy0, hy1, hy365⟩ := yday_bounds y m d hv
  have hw : wrapUint64 (146097 * a + 36524 * b + 1461 * c + 365 * e)
      = 146097 * a + 36524 * b + 1461 * c + 365 * e :=
    wrapUint64_id _ (by omega) (by simp only [absoluteZeroYear] at *; omega)
  rw [hw] at hd
  have hD : daysSinceEpoch y + yday y m d ≤ 213503982334600 := by
    simp only [absoluteZeroYear] at *; omega
  refine ⟨?_, by omega, hD, ?_⟩
  · unfold dateAbs
    rw [wrapInt64_id (m - 1) (by have := hv.1; omega) (by have := hv.2.1; omega),
      norm_id y (m - 1) 12 (by have := hv.1; omega) (by have := hv.2.1; omega),
      norm_id mi s 60 hs0 hs]
    simp only
    rw [norm_id h mi 60 hm0 hm]
    simp only
    rw [norm_id d h 24 hh0 hh]
    simp only [secondsPerDay]
    have hyd : daysSinceEpoch y + daysBefore (m - 1 + 1 - 1)
        + (if (isLeap y && decide (m - 1 + 1 ≥ 3)) = true then 1 else 0)
        + (d - 1) = daysSinceEpoch y + yday y m d := by
      simp only [yday, show m - 1 + 1 = m from by ring]
      ring
    rw [hyd]
    exact wrapUint64_id _ (by omega) (by omega)
  · rw [hd, hY]
    have := absYday_cycles a b c e (yday y m d) hb0 hb hc0 hc he0 he hy0 hy1
      (fun h => hl.mp (hy365 h))
    rw [this]

/-- The calendar fields of the instant that `time.Date` builds from a valid date and time
of day are the arguments, as long as the year is one that the library's 64-bit second
count can hold. -/
theorem Date_fields (y m d h mi : Int) (hy : absoluteZeroYear ≤ y) (hy2 : y ≤ 292277026853)
    (hv : validDate y m d) (hh0 : 0 ≤ h) (hh : h < 24) (hm0 : 0 ≤ mi) (hm : mi < 60) :
    (Date y m d h mi 0 0).Year = y ∧ (Date y m d h mi 0 0).Month = m ∧
    (Date y m d h mi 0 0).Day = d ∧ (Date y m d h mi 0 0).Hour = h ∧
    (Date y m d h mi 0 0).Minute = mi ∧ (Date y m d h mi 0 0).Second = 0 ∧
    (Date y m d h mi 0 0).Nanosecond = 0 := by
  obtain ⟨hA, hD0, hD, hYd⟩ := dateAbs_valid y m d h mi 0 hy hy2 hv hh0 hh hm0 hm (by omega) (by omega)
  have habs : (Date y m d h mi 0 0).abs
      = (daysSinceEpoch y + yday y m d) * 86400 + (h * 3600 + mi * 60 + 0) := by
    unfold Date Time.abs
    rw [norm_id 0 0 1000000000 (by omega) (by omega)]
    simp only
    rw [hA]
    exact abs_of_wrap _ (by omega) (by omega)
  have hdiv : ((daysSinceEpoch y + yday y m d) * 86400 + (h * 3600 + mi * 60 + 0)) / 86400
      = daysSinceEpoch y + yday y m d := by omega
  have hdate : absDate (Date y m d h mi 0 0).abs = (y, m, d) := by
    rw [habs]
    unfold absDate
    simp only [secondsPerDay, hdiv, hYd]
    rw [show y - absoluteZeroYear + absoluteZeroYear = y from by ring, ydayDate_yday y m d hv]
  refine ⟨?_, ?_, ?_, ?_, ?_, ?_, ?_⟩
  · simp only [Time.Year, hdate]
  · simp only [Time.Month, hdate]
  · simp only [Time.Day, hdate]
  · simp only [Time.Hour, habs, secondsPerDay]; omega
  · simp only [Time.Minute, habs]; omega
  · simp only [Time.Second, habs]; omega
  · simp only [Time.Nanosecond, Date]
    rw [norm_id 0 0 1000000000 (by omega) (by omega)]

theorem absYday_inv (D : Int) (h0 : 0 ≤ D) (h1 : D ≤ 213503982334601) :
    ∃ a b c e yd : Int, 0 ≤ a ∧ 0 ≤ b ∧ b ≤ 3 ∧ 0 ≤ c ∧ c ≤ 24 ∧ 0 ≤ e ∧ e ≤ 3 ∧ 0 ≤ yd ∧
      yd ≤ 365 ∧ (yd = 365 → e = 3 ∧ (c ≠ 24 ∨ b = 3)) ∧
      D = 146097 * a + 36524 * b + 1461 * c + 365 * e + yd ∧
      absYday D = (400 * a + 100 * b + 4 * c + e, yd) := by
  have hd1 : 0 ≤ D - 146097 * (D / 146097) ∧ D - 146097 * (D / 146097) < 146097 := by omega
  generalize ha : D / 146097 = a at hd1
  generalize hd1e : D - 146097 * a = d1 at hd1
  have hb : 0 ≤ d1 / 36524 - d1 / 36524 / 4 ∧ d1 / 36524 - d1 / 36524 / 4 ≤ 3 ∧
      0 ≤ d1 - 36524 * (d1 / 36524 - d1 / 36524 / 4) ∧
      d1 - 36524 * (d1 / 36524 - d1 / 36524 / 4) ≤ 36524 ∧
      (d1 - 36524 * (d1 / 36524 - d1 / 36524 / 4) = 36524 → d1 / 36524 - d1 / 36524 / 4 = 3) := by
    omega
  generalize hbe : d1 / 36524 - d1 / 36524 / 4 = b at hb
  generalize hd2e : d1 - 36524 * b = d2 at hb
  have hc : 0 ≤ d2 / 1461 ∧ d2 / 1461 ≤ 24 ∧ 0 ≤ d2 - 1461 * (d2 / 1461) ∧
      d2 - 1461 * (d2 / 1461) ≤ 1460 ∧ (d2 = 36524 → d2 / 1461 = 24 ∧ d2 - 1461 * (d2 / 1461) = 1460) ∧
      (d2 / 1461 = 24 → d2 - 1461 * (d2 / 1461) = 1460 → d2 = 36524) := by
    omega
  generalize hce : d2 / 1461 = c at hc
  generalize hd3e : d2 - 1461 * c = d3 at hc
  have he : 0 ≤ d3 / 365 - d3 / 365 / 4 ∧ d3 / 365 - d3 / 365 / 4 ≤ 3 ∧
      0 ≤ d3 - 365 * (d3 / 365 - d3 / 365 / 4) ∧ d3 - 365 * (d3 / 365 - d3 / 365 / 4) ≤ 365 ∧
      (d3 - 365 * (d3 / 365 - d3 / 365 / 4) = 365 → d3 / 365 - d3 / 365 / 4 = 3 ∧ d3 = 1460) := by
    omega
  generalize hee : d3 / 365 - d3 / 365 / 4 = e at he
  generalize hyde : d3 - 365 * e = yd at he
  refine ⟨a, b, c, e, yd, by omega, hb.1, hb.2.1, hc.1, hc.2.1, he.1, he.2.1, he.2.2.1,
    he.2.2.2.1, ?_, by omega, ?_⟩
  · intro h
    obtain ⟨h3, h1460⟩ := he.2.2.2.2 h
    refine ⟨h3, ?_⟩
    by_cases hc24 : c = 24
    · right
      have : d2 = 36524 := hc.2.2.2.2.2 hc24 h1460
      exact hb.2.2.2.2 this
    · left; exact hc24
  · unfold absYday
    simp only [ha, hd1e, hbe, hd2e, hce, hd3e, hee, hyde]

theorem ydayDate_inv (L : Bool) (x : Int) (h0 : 0 ≤ x) (h1 : x ≤ 364 + (if L then 1 else 0))
    (m d : Int)
    (h : (if L = true ∧ x = 31 + 29 - 1 then ((2 : Int), (29 : Int))
     else
      if (if L = true ∧ x > 31 + 29 - 1 then x - 1 else x)
          ≥ daysBefore ((if L = true ∧ x > 31 + 29 - 1 then x - 1 else x) / 31 + 1) then
        ((if L = true ∧ x > 31 + 29 - 1 then x - 1 else x) / 31 + 2,
          (if L = true ∧ x > 31 + 29 - 1 then x - 1 else x)
            - daysBefore ((if L = true ∧ x > 31 + 29 - 1 then x - 1 else x) / 31 + 1) + 1)
      else
        ((if L = true ∧ x > 31 + 29 - 1 then x - 1 else x) / 31 + 1,
          (if L = true ∧ x > 31 + 29 - 1 then x - 1 else x)
            - daysBefore ((if L = true ∧ x > 31 + 29 - 1 then x - 1 else x) / 31) + 1)) = (m, d)) :
    1 ≤ m ∧ m ≤ 12 ∧ 1 ≤ d ∧
      daysBefore (m - 1) + (if L && decide (m ≥ 3) then 1 else 0) + (d - 1) = x := by
  cases L
  · simp only [Bool.false_eq_true, false_and, if_false, add_zero, Bool.false_and] at *
    have hq : x / 31 = 0 ∨ x / 31 = 1 ∨ x / 31 = 2 ∨ x / 31 = 3 ∨ x / 31 = 4 ∨ x / 31 = 5 ∨
        x / 31 = 6 ∨ x / 31 = 7 ∨ x / 31 = 8 ∨ x / 31 = 9 ∨ x / 31 = 10 ∨ x / 31 = 11 := by omega
    rcases hq with q | q | q | q | q | q | q | q | q | q | q | q <;>
      simp only [q, daysBefore] at h <;> norm_num at h <;> split_ifs at h <;>
      simp only [Prod.mk.injEq] at h <;> obtain ⟨hm, hd⟩ := h <;> subst hm <;>
      simp only [daysBefore] <;> norm_num <;> omega
  · simp only [true_and, if_true, Bool.true_and] at *
    by_cases h59 : x = 31 + 29 - 1
    · simp only [h59, if_true, Prod.mk.injEq] at h
      obtain ⟨hm, hd⟩ := h
      subst hm; subst hd
      simp only [daysBefore]
      norm_num
      omega
    · simp only [h59, if_false] at h
      by_cases hgt : x > 31 + 29 - 1
      · simp only [hgt, if_true] at h
        have hq : (x - 1) / 31 = 1 ∨ (x - 1) / 31 = 2 ∨ (x - 1) / 31 = 3 ∨
            (x - 1) / 31 = 4 ∨ (x - 1) / 31 = 5 ∨ (x - 1) / 31 = 6 ∨ (x - 1) / 31 = 7 ∨
            (x - 1) / 31 = 8 ∨ (x - 1) / 31 = 9 ∨ (x - 1) / 31 = 10 ∨ (x - 1) / 31 = 11 := by
          omega
        rcases hq with q | q | q | q | q | q | q | q | q | q | q <;>
          simp only [q, daysBefore] at h <;> norm_num at h <;> split_ifs at h <;>
          simp only [Prod.mk.injEq] at h <;> obtain ⟨hm, hd⟩ := h <;> subst hm <;>
          simp only [daysBefore] <;> norm_num <;> omega
      · simp only [hgt, if_false] at h
        have hq : x / 31 = 0 ∨ x / 31 = 1 := by omega
        rcases hq with q | q <;>
          simp only [q, daysBefore] at h <;> norm_num at h <;> split_ifs at h <;>
          simp only [Prod.mk.injEq] at h <;> obtain ⟨hm, hd⟩ := h <;> subst hm <;>
          simp only [daysBefore] <;> norm_num <;> omega

/-- The calendar date of any absolute second count, and the day count it stands for. -/
theorem absDate_inv (A : Int) (h0 : 0 ≤ A) (h1 : A < 18446744073709551616) :
    ∃ year m dd : Int, absDate A = (year, m, dd) ∧ absoluteZeroYear ≤ year ∧
      year ≤ 292277026854 ∧ 1 ≤ m ∧ m ≤ 12 ∧ 1 ≤ dd ∧
      daysSinceEpoch year + daysBefore (m - 1)
        + (if isLeap year && decide (m ≥ 3) then 1 else 0) + (dd - 1) = A / 86400 := by
  obtain ⟨a, b, c, e, yd, ha, hb0, hb, hc0, hc, he0, he, hyd0, hyd1, hyd365, hD, hY⟩ :=
    absYday_inv (A / 86400) (by omega) (by omega)
  have hyr0 : absoluteZeroYear ≤ 400 * a + 100 * b + 4 * c + e + absoluteZeroYear := by omega
  have hyr1 : 400 * a + 100 * b + 4 * c + e + absoluteZeroYear ≤ 292277026854 := by
    simp only [absoluteZeroYear]; omega
  obtain ⟨a', b', c', e', ha', hb0', hb', hc0', hc', he0', he', hY', hd', hl'⟩ :=
    daysSinceEpoch_cycles (400 * a + 100 * b + 4 * c + e + absoluteZeroYear) hyr0 (by omega)
  have ea : a' = a := by omega
  have eb : b' = b := by omega
  have ec : c' = c := by omega
  have ee : e' = e := by omega
  subst ea eb ec ee
  rw [wrapUint64_id _ (by omega) (by omega)] at hd'
  generalize hyear : 400 * a' + 100 * b' + 4 * c' + e' + absoluteZeroYear = year at *
  have hL : yd ≤ 364 + (if isLeap year then 1 else 0) := by
    by_cases h : yd = 365
    · have := hl'.mpr (hyd365 h)
      simp only [this, if_true]; omega
    · split_ifs <;> omega
  have hdate : absDate A = (year, ydayDate year yd) := by
    unfold absDate
    simp only [secondsPerDay, hY, hyear]
  obtain ⟨hm1, hm12, hdd1, hsum⟩ :=
    ydayDate_inv (isLeap year) yd hyd0 hL (ydayDate year yd).1 (ydayDate year yd).2 (by
      unfold ydayDate
      rfl)
  refine ⟨year, (ydayDate year yd).1, (ydayDate year yd).2, hdate, hyr0, hyr1, hm1, hm12, hdd1,
    ?_⟩
  · rw [hd', Int.add_assoc, Int.add_assoc, ← Int.add_assoc (daysBefore _), hsum]
    omega

/-- Adding days with `AddDate` moves a UTC instant by that many times 86400 seconds
(within the 64-bit second count) and keeps the nanoseconds. -/
theorem AddDate_days (t : Time) (k : Int) (hn0 : 0 ≤ t.nsec) (hn1 : t.nsec < 1000000000) :
    t.AddDate 0 0 k = { ext := wrapInt64 (t.ext + 86400 * k), nsec := t.nsec } := by
  have hA0 : 0 ≤ t.abs := by unfold Time.abs wrapUint64; omega
  have hA1 : t.abs < 18446744073709551616 := by unfold Time.abs wrapUint64; omega
  obtain ⟨year, m, dd, hdate, hy0, hy1, hm1, hm12, hdd1, hsum⟩ := absDate_inv t.abs hA0 hA1
  have hY : t.Year = year := by simp only [Time.Year, hdate]
  have hM : t.Month = m := by simp only [Time.Month, hdate]
  have hDy : t.Day = dd := by simp only [Time.Day, hdate]
  unfold Time.AddDate
  rw [hY, hM, hDy]
  have w1 : wrapInt64 (year + 0) = year := by
    rw [Int.add_zero]
    exact wrapInt64_id _ (by simp only [absoluteZeroYear] at hy0; omega) (by omega)
  have w2 : wrapInt64 (m + 0) = m := by
    rw [Int.add_zero]
    exact wrapInt64_id _ (by omega) (by omega)
  rw [w1, w2]
  unfold Date
  rw [norm_id t.Second t.nsec 1000000000 hn0 hn1]
  simp only
  have hH : 0 ≤ t.Hour ∧ t.Hour < 24 := by simp only [Time.Hour, secondsPerDay]; omega
  have hMi : 0 ≤ t.Minute ∧ t.Minute < 60 := by simp only [Time.Minute]; omega
  have hS : 0 ≤ t.Second ∧ t.Second < 60 := by simp only [Time.Second]; omega
  have hsecs : t.Hour * 3600 + t.Minute * 60 + t.Second = t.abs % 86400 := by
    simp only [Time.Hour, Time.Minute, Time.Second, secondsPerDay]; omega
  have hdabs : dateAbs year m (wrapInt64 (dd + k)) t.Hour t.Minute t.Second
      = wrapUint64 ((t.abs / 86400 - dd + wrapInt64 (dd + k)) * 86400 + t.abs % 86400) := by
    unfold dateAbs
    rw [wrapInt64_id (m - 1) (by omega) (by omega),
      norm_id year (m - 1) 12 (by omega) (by omega), norm_id t.Minute t.Second 60 hS.1 hS.2]
    simp only
    rw [norm_id t.Hour t.Minute 60 hMi.1 hMi.2]
    simp only
    rw [norm_id (wrapInt64 (dd + k)) t.Hour 24 hH.1 hH.2]
    simp only [secondsPerDay, show m - 1 + 1 = m from by ring, hsecs]
    congr 2
    rw [← hsum]
    ring
  rw [hdabs]
  congr 1
  have hab : t.abs = (t.ext + internalToAbsolute) % 18446744073709551616 := rfl
  generalize t.abs = A at *
  generalize t.ext = E at *
  simp only [wrapUint64, wrapInt64, absoluteToInternal, internalToAbsolute] at *
  omega

/-! ## Path splitting -/

theorem Split_nosep (sep : Char) (n : Str) (h : sep ∉ n) : Split sep n = [n] := by
  induction n with
  | nil => rfl
  | cons c cs ih =>
    have hc : c ≠ sep := fun e => h (by simp [e])
    have hcs : sep ∉ cs := fun e => h (by simp [e])
    simp only [Split, hc, if_false, ih hcs]

theorem Split_append (sep : Char) (n r : Str) (h : sep ∉ n) :
    Split sep (n ++ sep :: r) = n :: Split sep r := by
  induction n with
  | nil => simp [Split]
  | cons c cs ih =>
    have hc : c ≠ sep := fun e => h (by simp [e])
    have hcs : sep ∉ cs := fun e => h (by simp [e])
    have ih2 := ih hcs
    show Split sep (c :: (cs ++ sep :: r)) = (c :: cs) :: Split sep r
    simp only [Split, hc, if_false, ih2]

theorem Split_joinPath (names : List Str) (hne : names ≠ [])
    (h : ∀ n ∈ names, pathSeparator ∉ n) : Split pathSeparator (joinPath names) = names := by
  induction names with
  | nil => exact absurd rfl hne
  | cons n rest ih =>
    cases rest with
    | nil => exact Split_nosep _ _ (h n (by simp))
    | cons m rest =>
      have := ih (by simp) (fun x hx => h x (by simp [hx]))
      simp only [joinPath]
      rw [Split_append _ _ _ (h n (by simp))]
      simp only [joinPath] at this
      rw [this]

theorem cleanParts_clean (names : List Str) (h : ∀ n ∈ names, cleanName n) :
    cleanParts names = names := by
  induction names with
  | nil => rfl
  | cons n rest ih =>
    obtain ⟨h1, h2, _, h4⟩ := h n (by simp)
    simp only [cleanParts, h4, h1, h2, or_self, if_false]
    rw [ih (fun x hx => h x (by simp [hx]))]

theorem joinPath_ne (names : List Str) (hne : names ≠ []) (h : ∀ n ∈ names, cleanName n) :
    joinPath names ≠ [] ∧ joinPath names ≠ ['.'] := by
  cases names with
  | nil => exact absurd rfl hne
  | cons n rest =>
    obtain ⟨h1, h2, _, _⟩ := h n (by simp)
    cases rest with
    | nil => exact ⟨h1, h2⟩
    | cons m rest =>
      simp only [joinPath]
      cases n with
      | nil => exact absurd rfl h1
      | cons c cs =>
        constructor
        · simp
        · intro e
          simp only [List.cons_append, List.cons.injEq] at e
          have := e.2
          cases cs <;> simp at this

theorem splitClean_of_clean (names : List Str) (hne : names ≠ [])
    (h : ∀ n ∈ names, cleanName n) : splitClean (joinPath names) = names := by
  obtain ⟨h1, h2⟩ := joinPath_ne names hne h
  unfold splitClean
  simp only [h1, h2, or_self, if_false]
  rw [Split_joinPath names hne (fun n hn => (h n hn).2.2.1)]
  exact cleanParts_clean names h

/-! ## Cleaned paths -/

theorem Split_ne_nil (sep : Char) (s : Str) : Split sep s ≠ [] := by
  induction s with
  | nil => simp [Split]
  | cons c cs ih =>
    unfold Split
    split
    · simp
    · split <;> simp

theorem Split_append_sep (sep : Char) (a b : Str) :
    Split sep (a ++ sep :: b) = Split sep a ++ Split sep b := by
  induction a with
  | nil => simp [Split]
  | cons c cs ih =>
    by_cases hc : c = sep
    · show Split sep (c :: (cs ++ sep :: b)) = Split sep (c :: cs) ++ Split sep b
      simp only [Split, hc, if_true, ih, List.cons_append]
    · show Split sep (c :: (cs ++ sep :: b)) = Split sep (c :: cs) ++ Split sep b
      simp only [Split, hc, if_false, ih]
      cases h : Split sep cs with
      | nil => exact absurd h (Split_ne_nil sep cs)
      | cons x xs => rfl

theorem Split_nosep_mem (sep : Char) (s : Str) : ∀ e ∈ Split sep s, sep ∉ e := by
  induction s with
  | nil => simp [Split]
  | cons c cs ih =>
    intro e he
    by_cases hc : c = sep
    · simp only [Split, hc, if_true, List.mem_cons] at he
      rcases he with h | h
      · rw [h]; simp
      · exact ih e h
    · simp only [Split, hc, if_false] at he
      cases h : Split sep cs with
      | nil => exact absurd h (Split_ne_nil sep cs)
      | cons x xs =>
        rw [h] at he ih
        simp only [List.mem_cons] at he
        rcases he with h1 | h1
        · rw [h1]
          intro hm
          rcases List.mem_cons.mp hm with h2 | h2
          · exact hc h2.symm
          · exact ih x (by simp) h2
        · exact ih e (by simp [h1])

theorem cleanStep_mem (rooted : Bool) (st : List Str) (e x : Str)
    (h : x ∈ cleanStep rooted st e) : x ∈ st ∨ x = e := by
  unfold cleanStep at h
  split at h
  · exact Or.inl h
  · split at h
    · split at h
      · split at h
        · simp at h
        · simp only [List.mem_singleton] at h
          exact Or.inr h
      · next top rest =>
        split at h
        · split at h
          · exact Or.inl h
          · rcases List.mem_cons.mp h with h1 | h1
            · exact Or.inr h1
            · exact Or.inl h1
        · exact Or.inl (List.mem_cons_of_mem _ h)
    · rcases List.mem_cons.mp h with h1 | h1
      · exact Or.inr h1
      · exact Or.inl h1

theorem foldl_cleanStep_mem (rooted : Bool) (cs : List Str) :
    ∀ (st : List Str) (x : Str), x ∈ cs.foldl (cleanStep rooted) st → x ∈ st ∨ x ∈ cs := by
  induction cs with
  | nil => intro st x h; exact Or.inl h
  | cons c cs ih =>
    intro st x h
    simp only [List.foldl_cons] at h
    rcases ih _ x h with h1 | h1
    · rcases cleanStep_mem rooted st c x h1 with h2 | h2
      · exact Or.inl h2
      · exact Or.inr (by simp [h2])
    · exact Or.inr (List.mem_cons_of_mem _ h1)

theorem cleanStep_plain (rooted : Bool) (st : List Str) (T : Str) (hT : plainName T) :
    cleanStep rooted st T = T :: st := by
  obtain ⟨⟨h1, h2, _, _⟩, h3⟩ := hT
  simp only [cleanStep, h1, h2, h3, or_self, if_false]

theorem Clean_endsIn (X : Str) (cs : List Str) (T : Str) (hX : X ≠ [])
    (hs : Split pathSeparator X = cs ++ [T]) (hT : plainName T) : endsIn T (Clean X) := by
  unfold Clean
  simp only [hX, if_false, hs, List.foldl_append, List.foldl_cons, List.foldl_nil,
    cleanStep_plain _ _ T hT, List.reverse_cons]
  have hmem : ∀ (r : Bool), ∀ x ∈ (cs.foldl (cleanStep r) []).reverse, pathSeparator ∉ x := by
    intro r x hx
    rcases foldl_cleanStep_mem r cs [] x (List.mem_reverse.mp hx) with h | h
    · simp at h
    · exact Split_nosep_mem pathSeparator X x (by rw [hs]; simp [h])
  split
  · next hr => exact ⟨_, hmem _, Or.inl rfl⟩
  · next hr =>
    refine ⟨_, hmem (decide (List.head? X = some pathSeparator)), Or.inr ?_⟩
    simp

theorem endsIn_facts (T p : Str) (hT : plainName T) (h : endsIn T p) :
    p ≠ [] ∧ (∃ cs, Split pathSeparator p = cs ++ [T]) ∧ p ≠ [pathSeparator] ∧ p ≠ ['.'] ∧
      lastElem p = T := by
  obtain ⟨xs, hxs, hp⟩ := h
  obtain ⟨⟨h1, h2, h3, _⟩, _⟩ := hT
  have hall : ∀ n ∈ xs ++ [T], pathSeparator ∉ n := by
    intro n hn
    rcases List.mem_append.mp hn with h | h
    · exact hxs n h
    · simp only [List.mem_singleton] at h
      rw [h]; exact h3
  have hsplit := Split_joinPath (xs ++ [T]) (by simp) hall
  have hne : joinPath (xs ++ [T]) ≠ [] := by
    intro e
    rw [e] at hsplit
    have : xs ++ [T] = [[]] := hsplit.symm
    have hl := congrArg List.getLast? this
    simp at hl
    exact h1 hl
  rcases hp with hp | hp
  · have hsp : Split pathSeparator p = ([] :: xs) ++ [T] := by
      rw [hp]
      show Split pathSeparator (pathSeparator :: joinPath (xs ++ [T])) = _
      simp only [Split, if_true, hsplit, List.cons_append]
    refine ⟨by rw [hp]; simp, ⟨_, hsp⟩, ?_, ?_, ?_⟩
    · rw [hp]
      intro e
      simp only [List.cons.injEq, true_and] at e
      exact hne e
    · rw [hp]
      intro e
      simp only [List.cons.injEq] at e
      exact absurd e.1 (by decide)
    · simp only [lastElem, hsp]
      rw [List.getLast?_append]
      simp
  · refine ⟨by rw [hp]; exact hne, ⟨xs, by rw [hp]; exact hsplit⟩, ?_, ?_, ?_⟩
    · rw [hp]
      intro e
      rw [e] at hsplit
      have : xs ++ [T] = [[], []] := by
        rw [← hsplit]; decide
      have hl := congrArg List.getLast? this
      simp at hl
      exact h1 hl
    · rw [hp]
      intro e
      rw [e] at hsplit
      have : xs ++ [T] = [['.']] := by
        rw [← hsplit]; decide
      have hl := congrArg List.getLast? this
      simp at hl
      exact h2 hl
    · simp only [lastElem, hp, hsplit]
      rw [List.getLast?_append]
      simp

/-- The base directory of the walk of a tenant named by a plain name: the cleaned
`filepath.Join(root, T)` is neither `/` nor `.`, and its last element is `T`. -/
theorem base_of_tenant (root T : Str) (hT : plainName T) :
    Clean (Join [root, T]) ≠ [pathSeparator] ∧ Clean (Join [root, T]) ≠ ['.'] ∧
      lastElem (Clean (Join [root, T])) = T := by
  have hTne : T ≠ [] := hT.1.1
  have hTsep : pathSeparator ∉ T := hT.1.2.2.1
  have hj : endsIn T (Join [root, T]) := by
    unfold Join
    by_cases hr : root = []
    · have hd : List.dropWhile (fun e : Str => e.isEmpty) [root, T] = [T] := by
        subst hr
        cases T with
        | nil => exact absurd rfl hTne
        | cons c t => rfl
      rw [hd]
      simp only [joinPath]
      exact Clean_endsIn T [] T hTne (by simpa using Split_nosep _ T hTsep) hT
    · have hd : List.dropWhile (fun e : Str => e.isEmpty) [root, T] = [root, T] := by
        cases root with
        | nil => exact absurd rfl hr
        | cons c t => rfl
      rw [hd]
      simp only [joinPath]
      refine Clean_endsIn _ (Split pathSeparator root) T (by simp) ?_ hT
      rw [Split_append_sep, Split_nosep _ T hTsep]
  obtain ⟨hne, ⟨cs, hcs⟩, _, _, _⟩ := endsIn_facts T _ hT hj
  have hc := Clean_endsIn (Join [root, T]) cs T hne hcs hT
  obtain ⟨_, _, h1, h2, h3⟩ := endsIn_facts T _ hT hc
  exact ⟨h1, h2, h3⟩

/-! ## `Atoi` -/

theorem parseDigits_none (ds : Str) (h : ds.all Char.isDigit = false) (n : Nat) :
    parseDigits ds n = none := by
  induction ds generalizing n with
  | nil => simp at h
  | cons c cs ih =>
    by_cases hc : c.isDigit = true
    · have hcs : cs.all Char.isDigit = false := by
        simp only [List.all_cons, hc, Bool.true_and] at h
        exact h
      simp only [parseDigits, hc, if_true, ih hcs]
    · simp only [parseDigits, hc, if_false, Bool.false_eq_true]

/-- A component that is not numeric makes `Atoi` fail. -/
theorem Atoi_not_numeric (s : Str) (h : isNumeric s = false) : Atoi s = none := by
  cases s with
  | nil => rfl
  | cons c cs =>
    simp only [isNumeric, Bool.and_eq_false_imp, Bool.not_eq_true', List.isEmpty_eq_false] at h
    unfold Atoi
    simp only
    by_cases he : (if c = '-' ∨ c = '+' then cs else c :: cs) = []
    · simp only [he, if_true]
    · simp only [he, if_false]
      have := h (by simpa [List.isEmpty_iff] using he)
      rw [parseDigits_none _ this]

theorem digitChar_isDigit (d : Nat) (h : d < 10) :
    (Nat.digitChar d).isDigit = true ∧ (Nat.digitChar d).toNat - 48 = d ∧
    Nat.digitChar d ≠ '-' ∧ Nat.digitChar d ≠ '+' := by
  interval_cases d <;> decide

theorem parseDigits_map (L : List Nat) (h : ∀ d ∈ L, d < 10) (acc : Nat) :
    parseDigits (L.map Nat.digitChar) acc = some (L.foldl (fun a d => a * 10 + d) acc) := by
  induction L generalizing acc with
  | nil => rfl
  | cons d ds ih =>
    obtain ⟨h1, h2, _, _⟩ := digitChar_isDigit d (h d (by simp))
    simp only [List.map_cons, parseDigits, h1, if_true, h2, List.foldl_cons]
    exact ih (fun x hx => h x (by simp [hx])) _

theorem foldl_digits (n : Nat) :
    (Nat.digits 10 n).reverse.foldl (fun a d => a * 10 + d) 0 = n := by
  induction n using Nat.strong_induction_on with
  | _ n ih =>
    rcases Nat.eq_zero_or_pos n with h | h
    · subst h; simp
    · rw [Nat.digits_def' (by norm_num) h, List.reverse_cons, List.foldl_append]
      simp only [List.foldl_cons, List.foldl_nil]
      rw [ih (n / 10) (Nat.div_lt_self h (by norm_num))]
      omega

theorem parseDigits_zeros (k : Nat) (r : Str) :
    parseDigits (List.replicate k '0' ++ r) 0 = parseDigits r 0 := by
  induction k with
  | zero => rfl
  | succ k ih =>
    simp only [List.replicate_succ, List.cons_append, parseDigits]
    have : ('0' : Char).isDigit = true := by decide
    simp only [this, if_true]
    exact ih

/-- On the decimal numerals of a number that fits `int`, `Atoi` returns the number. -/
theorem Atoi_decimal (s : Str) (n : Nat) (h : isDecimalOf s n) (hn : n ≤ 9223372036854775807) :
    Atoi s = some (n : Int) := by
  obtain ⟨k, hs, hlen⟩ := h
  have hd : ∀ d ∈ (Nat.digits 10 n).reverse, d < 10 := fun d hd =>
    Nat.digits_lt_base (by norm_num) (List.mem_reverse.mp hd)
  have hp : parseDigits s 0 = some n := by
    rw [hs, parseDigits_zeros, parseDigits_map _ hd, foldl_digits]
  cases s with
  | nil => simp at hlen
  | cons c cs =>
    have hc : c ≠ '-' ∧ c ≠ '+' := by
      cases k with
      | zero =>
        simp only [List.replicate_zero, List.nil_append] at hs
        cases hL : (Nat.digits 10 n).reverse with
        | nil => rw [hL] at hs; simp at hs
        | cons d ds =>
          rw [hL] at hs
          simp only [List.map_cons, List.cons.injEq] at hs
          have := digitChar_isDigit d (hd d (by rw [hL]; simp))
          rw [hs.1]
          exact ⟨this.2.2.1, this.2.2.2⟩
      | succ k =>
        simp only [List.replicate_succ, List.cons_append, List.cons.injEq] at hs
        rw [hs.1]
        decide
    unfold Atoi
    simp only [hc.1, hc.2, or_self, if_false, hp, decide_False]
    simp only [reduceCtorEq, if_false, Bool.false_eq_true]
    have : (-9223372036854775808 : Int) ≤ (n : Int) ∧ (n : Int) ≤ 9223372036854775807 := by omega
    simp only [this, and_self, if_true]

/-! ## C5: the retention resolver -/

/-- C5: with a `"default"` entry in the policy table, `retentionFor` returns the entry of
the tenant when the tenant is a key of the table and the `"default"` entry otherwise; being
a total function, it never fails. -/
theorem retentionFor_spec (T : Str) (cfg : Config) (v : Int)
    (hdef : cfg.Retention.lookup "default".toList = some v) :
    (∀ d : Int, cfg.Retention.lookup T = some d → retentionFor T cfg = d) ∧
    (cfg.Retention.lookup T = none → retentionFor T cfg = v) := by
  constructor
  · intro d hd
    simp only [retentionFor, hd]
  · intro hn
    simp only [retentionFor, hn, hdef, Option.getD_some]

/-- The resolver on the policy with a default of 30 days and 60 days for tenant `1001`. -/
theorem retentionFor_spec_witness :
    (List.lookup "default".toList [("default".toList, (30 : Int)), ("1001".toList, 60)]
      = some 30) ∧
    ((∀ d : Int, List.lookup "1001".toList [("default".toList, (30 : Int)), ("1001".toList, 60)]
        = some d →
        retentionFor "1001".toList ⟨[("default".toList, 30), ("1001".toList, 60)]⟩ = d) ∧
     (List.lookup "1001".toList [("default".toList, (30 : Int)), ("1001".toList, 60)] = none →
        retentionFor "1001".toList ⟨[("default".toList, 30), ("1001".toList, 60)]⟩ = 30)) :=
  ⟨by decide, retentionFor_spec "1001".toList ⟨[("default".toList, 30), ("1001".toList, 60)]⟩ 30
    (by decide)⟩

/-! ## C6: malformed components -/

theorem parseTimestampFromParts_none_iff (ys ms ds hs mins : Str) :
    parseTimestampFromParts ys ms ds hs mins = none ↔
      (Atoi ys = none ∨ Atoi ms = none ∨ Atoi ds = none ∨ Atoi hs = none ∨ Atoi mins = none) := by
  unfold parseTimestampFromParts
  cases Atoi ys <;> cases Atoi ms <;> cases Atoi ds <;> cases Atoi hs <;> cases Atoi mins <;>
    simp

/-- Amended C6: `parseTimestampFromParts` reports failure exactly when `Atoi` rejects one of
the five components, which it does for every component that is not numeric (not an optional
sign followed by digits only); five numbers that `Atoi` accepts are handed to `time.Date`
whatever their values, so numbers outside the calendar ranges are not a failure. -/
theorem parseTimestampFromParts_failure (ys ms ds hs mins : Str) :
    (parseTimestampFromParts ys ms ds hs mins = none ↔
      (Atoi ys = none ∨ Atoi ms = none ∨ Atoi ds = none ∨ Atoi hs = none ∨ Atoi mins = none)) ∧
    ((isNumeric ys = false ∨ isNumeric ms = false ∨ isNumeric ds = false ∨
        isNumeric hs = false ∨ isNumeric mins = false) →
      parseTimestampFromParts ys ms ds hs mins = none) ∧
    (∀ y m d h min : Int, Atoi ys = some y → Atoi ms = some m → Atoi ds = some d →
      Atoi hs = some h → Atoi mins = some min →
      parseTimestampFromParts ys ms ds hs mins = some (Date y m d h min 0 0)) := by
  refine ⟨parseTimestampFromParts_none_iff ys ms ds hs mins, ?_, ?_⟩
  · intro h
    rw [parseTimestampFromParts_none_iff]
    rcases h with h | h | h | h | h
    · exact Or.inl (Atoi_not_numeric _ h)
    · exact Or.inr (Or.inl (Atoi_not_numeric _ h))
    · exact Or.inr (Or.inr (Or.inl (Atoi_not_numeric _ h)))
    · exact Or.inr (Or.inr (Or.inr (Or.inl (Atoi_not_numeric _ h))))
    · exact Or.inr (Or.inr (Or.inr (Or.inr (Atoi_not_numeric _ h))))
  · intro y m d h min h1 h2 h3 h4 h5
    simp only [parseTimestampFromParts, h1, h2, h3, h4, h5]

/-- C6 as stated fails: month 13, day 32, hour 24 and minute 60 are all accepted. Month 13
of 2024 decodes to January 2025, and 2024-12-32 24:60 to 2025-01-02 01:00. -/
theorem parseTimestampFromParts_month13 :
    parseTimestampFromParts "2024".toList "13".toList "01".toList "00".toList "00".toList
      = some (Date 2025 1 1 0 0 0 0) ∧
    parseTimestampFromParts "2024".toList "12".toList "32".toList "24".toList "60".toList
      = some (Date 2025 1 2 1 0 0 0) ∧
    ¬ validDate 2024 13 1 ∧ ¬ validDate 2024 12 32 := by
  decide

/-! ## C9: decoding valid components -/

/-- Amended C9: for every valid calendar date with a year from 0 to 292277026853, hour in
0..23 and minute in 0..59, given as decimal numerals, `parseTimestampFromParts` succeeds and
the instant has that year, month, day, hour and minute, and zero seconds and nanoseconds. -/
theorem parseTimestampFromParts_roundtrip (ys ms ds hs mins : Str) (y m d h min : Nat)
    (hys : isDecimalOf ys y) (hms : isDecimalOf ms m) (hds : isDecimalOf ds d)
    (hhs : isDecimalOf hs h) (hmins : isDecimalOf mins min)
    (hv : validDate y m d) (hh : h < 24) (hmin : min < 60) (hy : y ≤ 292277026853) :
    ∃ t : Time, parseTimestampFromParts ys ms ds hs mins = some t ∧
      t.Year = y ∧ t.Month = m ∧ t.Day = d ∧ t.Hour = h ∧ t.Minute = min ∧
      t.Second = 0 ∧ t.Nanosecond = 0 := by
  have hm12 : (m : Int) ≤ 12 := hv.2.1
  have hd31 : (d : Int) ≤ 31 := by
    have := hv.2.2.2
    unfold daysIn at this
    split_ifs at this <;> omega
  have e1 := Atoi_decimal ys y hys (by omega)
  have e2 := Atoi_decimal ms m hms (by omega)
  have e3 := Atoi_decimal ds d hds (by omega)
  have e4 := Atoi_decimal hs h hhs (by omega)
  have e5 := Atoi_decimal mins min hmins (by omega)
  refine ⟨Date y m d h min 0 0, ?_, ?_⟩
  · simp only [parseTimestampFromParts, e1, e2, e3, e4, e5]
  · exact Date_fields y m d h min (by simp only [absoluteZeroYear]; omega) (by omega) hv
      (by omega) (by omega) (by omega) (by omega)

/-- The leap day 2024-02-29 23:59, with a zero-padded month. -/
theorem parseTimestampFromParts_roundtrip_witness :
    validDate (2024 : Nat) (2 : Nat) (29 : Nat) ∧
    ∃ t : Time, parseTimestampFromParts "2024".toList "02".toList "29".toList "23".toList
        "59".toList = some t ∧
      t.Year = (2024 : Nat) ∧ t.Month = (2 : Nat) ∧ t.Day = (29 : Nat) ∧ t.Hour = (23 : Nat) ∧
      t.Minute = (59 : Nat) ∧ t.Second = 0 ∧ t.Nanosecond = 0 :=
  ⟨by decide, parseTimestampFromParts_roundtrip "2024".toList "02".toList "29".toList
    "23".toList "59".toList 2024 2 29 23 59
    ⟨0, (by norm_num; decide), by decide⟩ ⟨1, (by norm_num; decide), by decide⟩ ⟨0, (by norm_num; decide), by decide⟩
    ⟨0, (by norm_num; decide), by decide⟩ ⟨0, (by norm_num; decide), by decide⟩
    (by decide) (by decide) (by decide) (by decide)⟩

/-- C9 as stated fails for years beyond what the 64-bit counts can hold: the numerals of
9223372036854775808 are rejected by `Atoi`, and year 1000000000000 is accepted but the
second count of `time.Date` wraps around, so that the instant reports another year. -/
theorem parseTimestampFromParts_huge_year :
    (validDate (9223372036854775808 : Nat) (1 : Nat) (1 : Nat) ∧
      isDecimalOf "9223372036854775808".toList 9223372036854775808 ∧
      isDecimalOf "01".toList 1 ∧ isDecimalOf "00".toList 0 ∧
      parseTimestampFromParts "9223372036854775808".toList "01".toList "01".toList
        "00".toList "00".toList = none) ∧
    (validDate (1000000000000 : Nat) (1 : Nat) (1 : Nat) ∧
      isDecimalOf "1000000000000".toList 1000000000000 ∧
      ∃ t : Time, parseTimestampFromParts "1000000000000".toList "01".toList "01".toList
        "00".toList "00".toList = some t ∧ t.Year ≠ 1000000000000) := by
  refine ⟨⟨by decide, ⟨0, (by norm_num; decide), by decide⟩, ⟨1, (by norm_num; decide), by decide⟩,
    ⟨2, (by norm_num; decide), by decide⟩, by decide⟩, by decide, ⟨0, (by norm_num; decide), by decide⟩,
    Date 1000000000000 1 1 0 0 0 0, by decide, by decide⟩

/-! ## The callback of `walkCompany` -/

theorem callback_minute (cutoff : Time) (path a b ys ms ds hs mins : Str) (ts : Time)
    (h : parseTimestampFromParts ys ms ds hs mins = some ts) :
    walkCompanyCallback cutoff path [a, b, ys, ms, ds, hs, mins]
      = ((if ts.Before cutoff then [Event.candidate path] else []) ++ [Event.progress],
          WalkResult.SkipDir) := by
  simp only [walkCompanyCallback, h]

theorem callback_malformed (cutoff : Time) (path a b ys ms ds hs mins : Str)
    (h : parseTimestampFromParts ys ms ds hs mins = none) :
    walkCompanyCallback cutoff path [a, b, ys, ms, ds, hs, mins] = ([], WalkResult.nil) := by
  simp only [walkCompanyCallback, h]

theorem callback_shallow (cutoff : Time) (path : Str) (relParts : List Str)
    (h1 : 1 ≤ relParts.length) (h6 : relParts.length ≤ 6) :
    walkCompanyCallback cutoff path relParts = ([], WalkResult.nil) := by
  rcases relParts with _ | ⟨a, _ | ⟨b, _ | ⟨c, _ | ⟨d, _ | ⟨e, _ | ⟨f, _ | ⟨g, r⟩⟩⟩⟩⟩⟩⟩
  · simp at h1
  all_goals first
    | rfl
    | (simp only [List.length_cons] at h6; omega)

theorem callback_deep (cutoff : Time) (path : Str) (relParts : List Str)
    (h8 : 8 ≤ relParts.length) :
    walkCompanyCallback cutoff path relParts = ([], WalkResult.SkipDir) := by
  rcases relParts with _ | ⟨a, _ | ⟨b, _ | ⟨c, _ | ⟨d, _ | ⟨e, _ | ⟨f, _ | ⟨g, _ | ⟨i, r⟩⟩⟩⟩⟩⟩⟩⟩
  all_goals first
    | rfl
    | (simp only [List.length_cons, List.length_nil] at h8; omega)

theorem callback_events (cutoff : Time) (path : Str) (relParts : List Str) :
    (walkCompanyCallback cutoff path relParts).1 = [] ∨
    (walkCompanyCallback cutoff path relParts).1 = [Event.progress] ∨
    ((walkCompanyCallback cutoff path relParts).1 = [Event.candidate path, Event.progress] ∧
      relParts.length = 7) := by
  rcases relParts with _ | ⟨a, _ | ⟨b, _ | ⟨c, _ | ⟨d, _ | ⟨e, _ | ⟨f, _ | ⟨g, _ | ⟨i, r⟩⟩⟩⟩⟩⟩⟩⟩
  all_goals first
    | (left; rfl)
    | skip
  cases h : parseTimestampFromParts c d e f g with
  | none => left; simp only [walkCompanyCallback, h]
  | some ts =>
    by_cases hb : ts.Before cutoff = true
    · right; right
      simp [walkCompanyCallback, h, hb]
    · right; left
      simp [walkCompanyCallback, h, hb]

/-! ## The call sequence of the walk -/

theorem paired_append : ∀ (a b : List Event), paired a = true → paired b = true →
    paired (a ++ b) = true
  | [], _, _, hb => hb
  | Event.progress :: r, b, ha, hb => by
    simp only [List.cons_append, paired] at *
    exact paired_append r b ha hb
  | [Event.candidate _], _, ha, _ => by simp [paired] at ha
  | Event.candidate _ :: Event.progress :: r, b, ha, hb => by
    simp only [List.cons_append, paired] at *
    exact paired_append r b ha hb
  | Event.candidate _ :: Event.candidate _ :: _, _, ha, _ => by simp [paired] at ha

theorem callback_paired (cutoff : Time) (path : Str) (relParts : List Str) :
    paired (walkCompanyCallback cutoff path relParts).1 = true := by
  rcases callback_events cutoff path relParts with h | h | ⟨h, _⟩ <;> rw [h] <;> rfl

mutual
theorem walkNode_paired (base : Str) (minDepth : Nat)
    (cb : Str → List Str → List Event × WalkResult)
    (hcb : ∀ p r, paired (cb p r).1 = true) :
    ∀ (n : Node) (below : List Str), paired (walkNode base minDepth cb below n) = true
  | Node.file _, _ => by simp [walkNode, paired]
  | Node.dir name readable kids, below => by
    have hk := walkKids_paired base minDepth cb hcb kids below
    have hr : paired (if (splitClean (relPath base below)).length < minDepth
        then (([] : List Event), WalkResult.nil)
        else cb (absPath base below) (splitClean (relPath base below))).1 = true := by
      split
      · rfl
      · exact hcb _ _
    unfold walkNode
    simp only
    generalize (if (splitClean (relPath base below)).length < minDepth
        then (([] : List Event), WalkResult.nil)
        else cb (absPath base below) (splitClean (relPath base below))) = r at hr
    obtain ⟨evs, res⟩ := r
    cases res with
    | nil =>
      simp only
      split
      · exact paired_append _ _ hr hk
      · exact hr
    | SkipDir => exact hr
theorem walkKids_paired (base : Str) (minDepth : Nat)
    (cb : Str → List Str → List Event × WalkResult)
    (hcb : ∀ p r, paired (cb p r).1 = true) :
    ∀ (ks : List Node) (below : List Str), paired (walkKids base minDepth cb below ks) = true
  | [], _ => by simp [walkKids, paired]
  | k :: ks, below => by
    unfold walkKids
    exact paired_append _ _ (walkNode_paired base minDepth cb hcb k (below ++ [k.name]))
      (walkKids_paired base minDepth cb hcb ks below)
end

theorem walkCompany_paired (opt : options) (cfg : Config) (companyID companyPath : Str)
    (found : Option Node) : paired (walkCompany opt cfg companyID companyPath found) = true := by
  unfold walkCompany walkDirOnly
  cases found with
  | none => rfl
  | some n => exact walkNode_paired _ _ _ (fun p r => callback_paired _ p r) n []

theorem paired_flatMap {α : Type} (f : α → List Event) (l : List α)
    (h : ∀ x, paired (f x) = true) : paired (l.flatMap f) = true := by
  induction l with
  | nil => rfl
  | cons x xs ih =>
    rw [List.flatMap_cons]
    exact paired_append _ _ (h x) ih

theorem walkCompanies_paired (opt : options) (cfg : Config) (fs : FileSystem)
    (evs : List Event) (h : walkCompanies opt cfg fs = some evs) : paired evs = true := by
  unfold walkCompanies at h
  split at h
  · simp only [Option.some.injEq] at h
    rw [← h]
    exact walkCompany_paired _ _ _ _ _
  · split at h
    · exact absurd h (by simp)
    · simp only [Option.some.injEq] at h
      rw [← h]
      apply paired_flatMap
      intro e
      cases e with
      | file _ => rfl
      | dir name readable kids => exact walkCompany_paired _ _ _ _ _

theorem paired_counts : ∀ (l : List Event), paired l = true →
    candidatesAfter l ≤ scannedAfter l
  | [], _ => by simp [candidatesAfter, scannedAfter]
  | Event.progress :: r, h => by
    have := paired_counts r (by simpa [paired] using h)
    simp only [candidatesAfter, scannedAfter, List.countP_cons, Event.isCandidate,
      Event.isProgress, Bool.false_eq_true, if_false, if_true] at *
    omega
  | [Event.candidate _], h => by simp [paired] at h
  | Event.candidate _ :: Event.progress :: r, h => by
    have := paired_counts r (by simpa [paired] using h)
    simp only [candidatesAfter, scannedAfter, List.countP_cons, Event.isCandidate,
      Event.isProgress, Bool.false_eq_true, if_false, if_true] at *
    omega
  | Event.candidate _ :: Event.candidate _ :: _, h => by simp [paired] at h

theorem paired_prefix_counts : ∀ (pre post : List Event), paired (pre ++ post) = true →
    candidatesAfter pre ≤ scannedAfter pre + 1
  | [], _, _ => by simp [candidatesAfter, scannedAfter]
  | Event.progress :: r, post, h => by
    have := paired_prefix_counts r post (by simpa [paired] using h)
    simp only [candidatesAfter, scannedAfter, List.countP_cons, Event.isCandidate,
      Event.isProgress, Bool.false_eq_true, if_false, if_true] at *
    omega
  | [Event.candidate _], _, _ => by
    simp [candidatesAfter, scannedAfter, List.countP_cons, Event.isCandidate, Event.isProgress]
  | Event.candidate _ :: Event.progress :: r, post, h => by
    have := paired_prefix_counts r post (by simpa [paired] using h)
    simp only [candidatesAfter, scannedAfter, List.countP_cons, Event.isCandidate,
      Event.isProgress, Bool.false_eq_true, if_false, if_true] at *
    omega
  | Event.candidate _ :: Event.candidate _ :: _, _, h => by simp [paired] at h

/-! ## C8: scanned against candidates -/

/-- Amended C8: at every point of the walker's sequence of counter updates the `candidates`
counter is at most `scanned + 1`, and it is at most `scanned` whenever the walker is between
two visits of its callback (every `onCandidate` so far has been followed by its
`onProgress`), in particular when the walk is over. -/
theorem scanned_ge_candidates_between_visits (opt : options) (cfg : Config)
    (fs : FileSystem) (pre post : List Event)
    (h : walkCompanies opt cfg fs = some (pre ++ post)) :
    candidatesAfter pre ≤ scannedAfter pre + 1 ∧
    (paired pre = true → candidatesAfter pre ≤ scannedAfter pre) ∧
    candidatesAfter (pre ++ post) ≤ scannedAfter (pre ++ post) := by
  have hp := walkCompanies_paired opt cfg fs _ h
  exact ⟨paired_prefix_counts pre post hp, paired_counts pre, paired_counts _ hp⟩

/-- The counters after the first visit of the scenario walk. -/
theorem scanned_ge_candidates_between_visits_witness :
    walkCompanies exOpts exPolicy30 exFS
      = some ([Event.candidate "/data/1001/dev/2024/05/06/12/00".toList, Event.progress]
        ++ [Event.progress]) ∧
    (candidatesAfter
        [Event.candidate "/data/1001/dev/2024/05/06/12/00".toList, Event.progress]
      ≤ scannedAfter
        [Event.candidate "/data/1001/dev/2024/05/06/12/00".toList, Event.progress] + 1 ∧
    (paired [Event.candidate "/data/1001/dev/2024/05/06/12/00".toList, Event.progress] = true →
      candidatesAfter
        [Event.candidate "/data/1001/dev/2024/05/06/12/00".toList, Event.progress]
      ≤ scannedAfter
        [Event.candidate "/data/1001/dev/2024/05/06/12/00".toList, Event.progress]) ∧
    candidatesAfter
        ([Event.candidate "/data/1001/dev/2024/05/06/12/00".toList, Event.progress]
          ++ [Event.progress])
      ≤ scannedAfter
        ([Event.candidate "/data/1001/dev/2024/05/06/12/00".toList, Event.progress]
          ++ [Event.progress])) :=
  ⟨by decide, scanned_ge_candidates_between_visits exOpts exPolicy30 exFS
    [Event.candidate "/data/1001/dev/2024/05/06/12/00".toList, Event.progress]
    [Event.progress] (by decide)⟩

/-- C8 as stated fails: the callback calls `onCandidate` before `onProgress`, so right
after the first update of the walk over the scenario tree `candidates` is 1 and `scanned`
is 0. -/
theorem scanned_lt_candidates_mid_visit :
    ∃ pre post : List Event, walkCompanies exOpts exPolicy30 exFS = some (pre ++ post) ∧
      candidatesAfter pre = 1 ∧ scannedAfter pre = 0 ∧ ¬ (scannedAfter pre ≥ candidatesAfter pre) :=
  ⟨[Event.candidate "/data/1001/dev/2024/05/06/12/00".toList],
    [Event.progress, Event.progress], by decide, by decide, by decide, by decide⟩

/-! ## C3: depth gating -/

/-- C3: on a directory with one to six components the callback returns `nil` (descend)
without calling `onCandidate` or `onProgress`; with eight or more it returns `fs.SkipDir`
(prune) without calling either; so `onCandidate` is only ever called for a directory with
exactly seven components, and with that directory's path. -/
theorem walkCompany_depth_gating (cutoff : Time) (path : Str) (relParts : List Str) :
    (1 ≤ relParts.length ∧ relParts.length ≤ 6 →
      walkCompanyCallback cutoff path relParts = ([], WalkResult.nil)) ∧
    (8 ≤ relParts.length →
      walkCompanyCallback cutoff path relParts = ([], WalkResult.SkipDir)) ∧
    (∀ p : Str, Event.candidate p ∈ (walkCompanyCallback cutoff path relParts).1 →
      relParts.length = 7 ∧ p = path) := by
  refine ⟨fun h => callback_shallow cutoff path relParts h.1 h.2,
    callback_deep cutoff path relParts, ?_⟩
  intro p hp
  rcases callback_events cutoff path relParts with h | h | ⟨h, hl⟩
  · rw [h] at hp; simp at hp
  · rw [h] at hp; simp at hp
  · rw [h] at hp
    simp at hp
    exact ⟨hl, hp⟩

/-! ## C2: the minute level -/

/-- C2 fails on the code for a minute directory whose name does not decode: for the
components `1001/dev/2024/01/01/00/xx` the callback returns `nil` (the walk descends into
the directory) and makes no call of `onProgress`, whereas for `1001/dev/2024/01/01/00/00`
it calls `onProgress` once and returns `fs.SkipDir`. -/
theorem walkCompany_malformed_minute_descends :
    parseTimestampFromParts "2024".toList "01".toList "01".toList "00".toList "xx".toList
      = none ∧
    walkCompanyCallback exNow "/data/1001/dev/2024/01/01/00/xx".toList
      ["1001".toList, "dev".toList, "2024".toList, "01".toList, "01".toList, "00".toList,
        "xx".toList] = ([], WalkResult.nil) ∧
    walkCompanyCallback exNow "/data/1001/dev/2024/01/01/00/00".toList
      ["1001".toList, "dev".toList, "2024".toList, "01".toList, "01".toList, "00".toList,
        "00".toList]
      = ([Event.candidate "/data/1001/dev/2024/01/01/00/00".toList, Event.progress],
          WalkResult.SkipDir) ∧
    (walkCompanies exOpts exPolicy30
      { readRoot := some [Node.dir "1001".toList true [Node.dir "dev".toList true
          [Node.dir "2024".toList true [Node.dir "01".toList true [Node.dir "01".toList true
            [Node.dir "00".toList true [Node.dir "xx".toList true
              [Node.dir "below".toList true []]]]]]]]],
        lstat := fun _ => none }).map scannedAfter = some 0 := by
  decide

/-! ## Invariants of the run -/

theorem sum_holding_set (ws : List Worker) (i : Nat) (w0 w : Worker) (h : ws[i]? = some w0) :
    ((ws.set i w).map Worker.holding).sum + w0.holding
      = (ws.map Worker.holding).sum + w.holding := by
  induction ws generalizing i with
  | nil => simp at h
  | cons a as ih =>
    cases i with
    | zero =>
      simp only [List.getElem?_cons_zero, Option.some.injEq] at h
      subst h
      simp only [List.set_cons_zero, List.map_cons, List.sum_cons]
      omega
    | succ i =>
      simp only [List.getElem?_cons_succ] at h
      have := ih i h
      simp only [List.set_cons_succ, List.map_cons, List.sum_cons]
      omega

theorem Inv_init (opt : options) (events : List Event) (fs : FileSystem) :
    Inv events (initState opt events fs) := by
  refine ⟨?_, ?_, ?_⟩
  · simp only [initState, RunState.inFlight, Option.isSome_none, Bool.false_eq_true, if_false,
      List.length_nil, List.map_replicate, List.sum_replicate, Worker.holding]
    simp
  · simp [initState]
  · simp [initState]

theorem Inv_step (opt : options) (events : List Event) (s s1 : RunState) (a : Action)
    (hinv : Inv events s) (h : step opt s a = some s1) : Inv events s1 := by
  obtain ⟨hf, hc, hcl⟩ := hinv
  cases a with
  | walker =>
    simp only [step] at h
    split at h
    · next p hs =>
      split at h
      · simp only [Option.some.injEq] at h
        subst h
        refine ⟨?_, hc, ?_⟩
        · simp only [RunState.inFlight, hs, Option.isSome_some, if_true, Option.isSome_none,
            Bool.false_eq_true, if_false, List.length_append, List.length_cons,
            List.length_nil] at hf ⊢
          omega
        · intro h1
          have := (hcl h1).2
          rw [hs] at this
          exact absurd this (by simp)
      · exact absurd h (by simp)
    · next hs =>
      split at h
      · next p rest hp =>
        simp only [Option.some.injEq] at h
        subst h
        refine ⟨?_, ?_, ?_⟩
        · simp only [RunState.inFlight, hs, Option.isSome_some, if_true, Option.isSome_none,
            Bool.false_eq_true, if_false] at hf ⊢
          omega
        · simp only [hp, candidatesAfter, List.countP_cons, Event.isCandidate, if_true] at hc ⊢
          omega
        · intro h1
          have := (hcl h1).1
          rw [hp] at this
          exact absurd this (by simp)
      · next rest hp =>
        simp only [Option.some.injEq] at h
        subst h
        refine ⟨hf, ?_, ?_⟩
        · simp only [hp, candidatesAfter, List.countP_cons, Event.isCandidate,
            Bool.false_eq_true, if_false] at hc ⊢
          omega
        · intro h1
          have := (hcl h1).1
          rw [hp] at this
          exact absurd this (by simp)
      · next hp =>
        split at h
        · exact absurd h (by simp)
        · simp only [Option.some.injEq] at h
          subst h
          exact ⟨hf, hc, fun _ => ⟨hp, hs⟩⟩
  | receive i =>
    simp only [step] at h
    split at h
    · next hw =>
      split at h
      · next p rest hj =>
        simp only [Option.some.injEq] at h
        subst h
        refine ⟨?_, hc, hcl⟩
        have := sum_holding_set s.workers i Worker.idle (Worker.busy p) hw
        simp only [RunState.inFlight, hj, List.length_cons, Worker.holding] at hf this ⊢
        omega
      · next hj =>
        split at h
        · simp only [Option.some.injEq] at h
          subst h
          refine ⟨?_, hc, hcl⟩
          have := sum_holding_set s.workers i Worker.idle Worker.exited hw
          simp only [RunState.inFlight, Worker.holding] at hf this ⊢
          omega
        · exact absurd h (by simp)
    · exact absurd h (by simp)
  | process i out =>
    simp only [step] at h
    split at h
    · next p hw =>
      have := sum_holding_set s.workers i (Worker.busy p) Worker.idle hw
      split at h
      · simp only [Option.some.injEq] at h
        subst h
        refine ⟨?_, hc, hcl⟩
        simp only [RunState.inFlight, Worker.holding] at hf this ⊢
        omega
      · split at h
        · simp only [Option.some.injEq] at h
          subst h
          refine ⟨?_, hc, hcl⟩
          simp only [RunState.inFlight, Worker.holding] at hf this ⊢
          omega
        · simp only [Option.some.injEq] at h
          subst h
          refine ⟨?_, hc, hcl⟩
          simp only [RunState.inFlight, Worker.holding] at hf this ⊢
          omega
    · exact absurd h (by simp)

theorem Inv_run (opt : options) (events : List Event) (sched : List Action) :
    ∀ (s s1 : RunState), Inv events s → run opt s sched = some s1 → Inv events s1 := by
  induction sched with
  | nil =>
    intro s s1 hinv h
    simp only [run, Option.some.injEq] at h
    subst h
    exact hinv
  | cons a rest ih =>
    intro s s1 hinv h
    simp only [run] at h
    split at h
    · next s2 hs => exact ih s2 s1 (Inv_step opt events s s2 a hinv hs) h
    · exact absurd h (by simp)

theorem sum_holding_exited (ws : List Worker)
    (h : ws.all (fun w => w == Worker.exited) = true) : (ws.map Worker.holding).sum = 0 := by
  induction ws with
  | nil => rfl
  | cons a as ih =>
    simp only [List.all_cons, Bool.and_eq_true, beq_iff_eq] at h
    simp only [List.map_cons, List.sum_cons, ih h.2, h.1, Worker.holding]

theorem finished_counts (events : List Event) (s : RunState) (hinv : Inv events s)
    (hfin : s.finished = true) :
    s.failed + s.deleted = s.candidates ∧ s.candidates = candidatesAfter events := by
  simp only [RunState.finished, Bool.and_eq_true, List.isEmpty_iff] at hfin
  obtain ⟨⟨hcl, hj⟩, hw⟩ := hfin
  obtain ⟨hp, hs⟩ := hinv.closed hcl
  have hf := hinv.flight
  have hc := hinv.counted
  simp only [RunState.inFlight, hs, hj, sum_holding_exited _ hw, hp, candidatesAfter,
    Option.isSome_none, Bool.false_eq_true, if_false, List.length_nil, List.countP_nil] at hf hc
  simp only [candidatesAfter]
  omega

/-! ## A complete run exists -/

theorem run_append (opt : options) (a b : List Action) :
    ∀ (s s1 : RunState), run opt s a = some s1 → run opt s (a ++ b) = run opt s1 b := by
  induction a with
  | nil =>
    intro s s1 h
    simp only [run, Option.some.injEq] at h
    subst h
    rfl
  | cons x xs ih =>
    intro s s1 h
    cases hs : step opt s x with
    | none => simp [run, hs] at h
    | some s2 =>
      simp only [run, List.cons_append, hs] at h ⊢
      exact ih s2 s1 h

theorem run_serial (opt : options) (out : RemoveOutcome) (n : Nat) :
    ∀ (events : List Event) (s : RunState), s.pending = events → s.sending = none →
      s.jobs = [] → s.workers = List.replicate (n + 1) Worker.idle → s.closed = false →
      ∃ s1, run opt s (serialSchedule out events) = some s1 ∧ s1.pending = [] ∧
        s1.sending = none ∧ s1.jobs = [] ∧ s1.workers = List.replicate (n + 1) Worker.idle ∧
        s1.closed = false := by
  intro events
  induction events with
  | nil =>
    intro s hp hs hj hw hc
    exact ⟨s, rfl, hp, hs, hj, hw, hc⟩
  | cons e rest ih =>
    intro s hp hs hj hw hc
    obtain ⟨pending, sending, closed, jobs, workers, sc, ca, de, fa, fs⟩ := s
    simp only at hp hs hj hw hc
    subst hp hs hj hw hc
    cases e with
    | progress =>
      simp only [serialSchedule, run, step]
      exact ih _ rfl rfl rfl rfl rfl
    | candidate p =>
      simp only [serialSchedule, run, step, List.length_nil, jobsCapacity,
        Nat.zero_lt_succ, if_true, List.nil_append, List.replicate_succ,
        List.getElem?_cons_zero, List.set_cons_zero]
      cases hx : opt.execute
      · simp only [Bool.not_false, if_true]
        exact ih _ rfl rfl rfl (by simp [List.replicate_succ]) rfl
      · cases hy : out.err
        · simp only [Bool.not_true, Bool.false_eq_true, if_false]
          exact ih _ rfl rfl rfl (by simp [List.replicate_succ]) rfl
        · simp only [Bool.not_true, Bool.false_eq_true, if_false, if_true]
          exact ih _ rfl rfl rfl (by simp [List.replicate_succ]) rfl

theorem run_receiveAll (opt : options) :
    ∀ (m : Nat) (pre : List Worker) (s : RunState),
      s.workers = pre ++ List.replicate m Worker.idle → s.jobs = [] → s.closed = true →
      ∃ s1, run opt s (receiveAll pre.length m) = some s1 ∧
        s1.workers = pre ++ List.replicate m Worker.exited ∧ s1.jobs = [] ∧
        s1.closed = true := by
  intro m
  induction m with
  | zero =>
    intro pre s hw hj hc
    exact ⟨s, rfl, by simpa using hw, hj, hc⟩
  | succ m ih =>
    intro pre s hw hj hc
    obtain ⟨pending, sending, closed, jobs, workers, sc, ca, de, fa, fs⟩ := s
    simp only at hw hj hc
    subst hw hj hc
    have hget : (pre ++ List.replicate (m + 1) Worker.idle)[pre.length]? = some Worker.idle := by
      rw [List.getElem?_append_right (Nat.le_refl _), Nat.sub_self, List.replicate_succ,
        List.getElem?_cons_zero]
    have hset : (pre ++ List.replicate (m + 1) Worker.idle).set pre.length Worker.exited
        = (pre ++ [Worker.exited]) ++ List.replicate m Worker.idle := by
      rw [List.set_append_right _ _ (Nat.le_refl _), Nat.sub_self, List.replicate_succ,
        List.set_cons_zero, List.append_assoc]
      rfl
    simp only [receiveAll, run, step, hget, if_true]
    obtain ⟨s1, h1, h2, h3, h4⟩ := ih (pre ++ [Worker.exited])
      { pending := pending, sending := sending, closed := true, jobs := [],
        workers := (pre ++ List.replicate (m + 1) Worker.idle).set pre.length Worker.exited,
        scanned := sc, candidates := ca, deleted := de, failed := fa, fs := fs } hset rfl rfl
    refine ⟨s1, ?_, ?_, h3, h4⟩
    · simp only [List.length_append, List.length_cons, List.length_nil, Nat.zero_add] at h1
      exact h1
    · rw [h2, List.replicate_succ, List.append_assoc]
      rfl

/-- With at least one worker, the complete schedule takes a run from its start to the
point where the queue is closed and drained and every worker has returned. -/
theorem run_complete (opt : options) (out : RemoveOutcome) (events : List Event)
    (fs : FileSystem) (hw : 1 ≤ opt.workers) :
    ∃ s, run opt (initState opt events fs) (completeSchedule out events opt.workers.toNat)
        = some s ∧ s.finished = true := by
  obtain ⟨n, hn⟩ : ∃ n : Nat, opt.workers.toNat = n + 1 := ⟨opt.workers.toNat - 1, by omega⟩
  obtain ⟨s1, h1, hp, hs, hj, hws, hc⟩ := run_serial opt out n events
    (initState opt events fs) rfl rfl rfl (by simp [initState, hn]) rfl
  have hclose : step opt s1 Action.walker = some { s1 with closed := true } := by
    simp only [step, hs, hp, hc, Bool.false_eq_true, if_false]
  obtain ⟨s2, h2, hw2, hj2, hc2⟩ := run_receiveAll opt (n + 1) []
    { s1 with closed := true } (by simpa using hws) hj rfl
  refine ⟨s2, ?_, ?_⟩
  · unfold completeSchedule
    rw [run_append opt _ _ _ s1 h1, hn]
    simp only [run, hclose]
    exact h2
  · simp only [RunState.finished, hc2, hj2, hw2, List.nil_append, Bool.and_eq_true,
      List.isEmpty_nil, List.all_eq_true, true_and]
    intro w hw
    rw [List.eq_of_mem_replicate hw]
    rfl

/-! ## Every run ends, and ends finished -/

theorem sum_weight_set (ws : List Worker) (i : Nat) (w0 w : Worker) (h : ws[i]? = some w0) :
    ((ws.set i w).map Worker.weight).sum + w0.weight
      = (ws.map Worker.weight).sum + w.weight := by
  induction ws generalizing i with
  | nil => simp at h
  | cons a as ih =>
    cases i with
    | zero =>
      simp only [List.getElem?_cons_zero, Option.some.injEq] at h
      subst h
      simp only [List.set_cons_zero, List.map_cons, List.sum_cons]
      omega
    | succ i =>
      simp only [List.getElem?_cons_succ] at h
      have := ih i h
      simp only [List.set_cons_succ, List.map_cons, List.sum_cons]
      omega

theorem measure_step (opt : options) (s s1 : RunState) (a : Action)
    (h : step opt s a = some s1) : s1.measure + 1 = s.measure := by
  cases a with
  | walker =>
    simp only [step] at h
    split at h
    · next p hs =>
      split at h
      · simp only [Option.some.injEq] at h
        subst h
        simp only [RunState.measure, hs, Option.isSome_some, if_true, Option.isSome_none,
          Bool.false_eq_true, if_false, List.length_append, List.length_cons, List.length_nil]
        omega
      · exact absurd h (by simp)
    · next hs =>
      split at h
      · next p rest hp =>
        simp only [Option.some.injEq] at h
        subst h
        simp only [RunState.measure, hs, hp, Option.isSome_some, if_true, Option.isSome_none,
          Bool.false_eq_true, if_false, candidatesAfter, scannedAfter, List.countP_cons,
          Event.isCandidate, Event.isProgress]
        omega
      · next rest hp =>
        simp only [Option.some.injEq] at h
        subst h
        simp only [RunState.measure, hp, candidatesAfter, scannedAfter, List.countP_cons,
          Event.isCandidate, Event.isProgress, Bool.false_eq_true, if_false, if_true]
        omega
      · next hp =>
        split at h
        · exact absurd h (by simp)
        · next hc =>
          simp only [Option.some.injEq] at h
          subst h
          simp only [RunState.measure, hc, if_true, if_false, Bool.false_eq_true]
  | receive i =>
    simp only [step] at h
    split at h
    · next hw =>
      split at h
      · next p rest hj =>
        simp only [Option.some.injEq] at h
        subst h
        have := sum_weight_set s.workers i Worker.idle (Worker.busy p) hw
        simp only [RunState.measure, hj, List.length_cons, Worker.weight] at this ⊢
        omega
      · next hj =>
        split at h
        · simp only [Option.some.injEq] at h
          subst h
          have := sum_weight_set s.workers i Worker.idle Worker.exited hw
          simp only [RunState.measure, Worker.weight] at this ⊢
          omega
        · exact absurd h (by simp)
    · exact absurd h (by simp)
  | process i out =>
    simp only [step] at h
    split at h
    · next p hw =>
      have := sum_weight_set s.workers i (Worker.busy p) Worker.idle hw
      split at h
      · simp only [Option.some.injEq] at h
        subst h
        simp only [RunState.measure, Worker.weight] at this ⊢
        omega
      · split at h
        · simp only [Option.some.injEq] at h
          subst h
          simp only [RunState.measure, Worker.weight] at this ⊢
          omega
        · simp only [Option.some.injEq] at h
          subst h
          simp only [RunState.measure, Worker.weight] at this ⊢
          omega
    · exact absurd h (by simp)

/-- A schedule that runs through has exactly as many steps as the measure has dropped. -/
theorem measure_run (opt : options) (sched : List Action) :
    ∀ (s s1 : RunState), run opt s sched = some s1 → s1.measure + sched.length = s.measure := by
  induction sched with
  | nil =>
    intro s s1 h
    simp only [run, Option.some.injEq] at h
    subst h
    rfl
  | cons a rest ih =>
    intro s s1 h
    cases hs : step opt s a with
    | none => simp [run, hs] at h
    | some s2 =>
      simp only [run, hs] at h
      have h1 := ih s2 s1 h
      have h2 := measure_step opt s s2 a hs
      simp only [List.length_cons]
      omega

theorem WInv_init (opt : options) (events : List Event) (fs : FileSystem) :
    WInv opt (initState opt events fs) := by
  refine ⟨by simp [initState], ?_, by simp [initState]⟩
  intro h
  simp only [initState] at h
  have := List.eq_of_mem_replicate h
  exact absurd this (by simp)

theorem mem_set_cases (ws : List Worker) (i : Nat) (w x : Worker) (h : x ∈ ws.set i w) :
    x = w ∨ x ∈ ws := by
  induction ws generalizing i with
  | nil => simp at h
  | cons a as ih =>
    cases i with
    | zero =>
      simp only [List.set_cons_zero, List.mem_cons] at h
      rcases h with h | h
      · exact Or.inl h
      · exact Or.inr (List.mem_cons_of_mem _ h)
    | succ i =>
      simp only [List.set_cons_succ, List.mem_cons] at h
      rcases h with h | h
      · exact Or.inr (by simp [h])
      · rcases ih i h with h | h
        · exact Or.inl h
        · exact Or.inr (List.mem_cons_of_mem _ h)

theorem WInv_step (opt : options) (s s1 : RunState) (a : Action)
    (hinv : WInv opt s) (h : step opt s a = some s1) : WInv opt s1 := by
  obtain ⟨hsz, hg, hcl⟩ := hinv
  cases a with
  | walker =>
    simp only [step] at h
    split at h
    · next p hs =>
      split at h
      · simp only [Option.some.injEq] at h
        subst h
        have hnc : s.closed ≠ true := fun hc => by
          have := (hcl hc).2
          rw [hs] at this
          exact absurd this (by simp)
        exact ⟨hsz, fun hm => absurd (hg hm).1 hnc, fun hc => absurd hc hnc⟩
      · exact absurd h (by simp)
    · next hs =>
      split at h
      · next p rest hp =>
        simp only [Option.some.injEq] at h
        subst h
        have hnc : s.closed ≠ true := fun hc => by
          have := (hcl hc).1
          rw [hp] at this
          exact absurd this (by simp)
        exact ⟨hsz, fun hm => absurd (hg hm).1 hnc, fun hc => absurd hc hnc⟩
      · next rest hp =>
        simp only [Option.some.injEq] at h
        subst h
        have hnc : s.closed ≠ true := fun hc => by
          have := (hcl hc).1
          rw [hp] at this
          exact absurd this (by simp)
        exact ⟨hsz, fun hm => absurd (hg hm).1 hnc, fun hc => absurd hc hnc⟩
      · next hp =>
        split at h
        · exact absurd h (by simp)
        · simp only [Option.some.injEq] at h
          subst h
          exact ⟨hsz, fun hm => ⟨rfl, (hg hm).2⟩, fun _ => ⟨hp, hs⟩⟩
  | receive i =>
    simp only [step] at h
    split at h
    · next hw =>
      split at h
      · next p rest hj =>
        simp only [Option.some.injEq] at h
        subst h
        refine ⟨by simpa using hsz, ?_, hcl⟩
        intro hm
        rcases mem_set_cases _ _ _ _ hm with h1 | h1
        · exact absurd h1 (by simp)
        · have := (hg h1).2
          rw [hj] at this
          exact absurd this (by simp)
      · next hj =>
        split at h
        · next hc =>
          simp only [Option.some.injEq] at h
          subst h
          exact ⟨by simpa using hsz, fun _ => ⟨hc, hj⟩, hcl⟩
        · exact absurd h (by simp)
    · exact absurd h (by simp)
  | process i out =>
    simp only [step] at h
    split at h
    · next p hw =>
      have hgone : ∀ x, x ∈ s.workers.set i Worker.idle → x = Worker.exited →
          s.closed = true ∧ s.jobs = [] := by
        intro x hx he
        subst he
        rcases mem_set_cases _ _ _ _ hx with h1 | h1
        · exact absurd h1 (by simp)
        · exact hg h1
      split at h
      · simp only [Option.some.injEq] at h
        subst h
        exact ⟨by simpa using hsz, fun hm => hgone _ hm rfl, hcl⟩
      · split at h
        · simp only [Option.some.injEq] at h
          subst h
          exact ⟨by simpa using hsz, fun hm => hgone _ hm rfl, hcl⟩
        · simp only [Option.some.injEq] at h
          subst h
          exact ⟨by simpa using hsz, fun hm => hgone _ hm rfl, hcl⟩
    · exact absurd h (by simp)

theorem WInv_run (opt : options) (sched : List Action) :
    ∀ (s s1 : RunState), WInv opt s → run opt s sched = some s1 → WInv opt s1 := by
  induction sched with
  | nil =>
    intro s s1 hinv h
    simp only [run, Option.some.injEq] at h
    subst h
    exact hinv
  | cons a rest ih =>
    intro s s1 hinv h
    cases hs : step opt s a with
    | none => simp [run, hs] at h
    | some s2 =>
      simp only [run, hs] at h
      exact ih s2 s1 (WInv_step opt s s2 a hinv hs) h

/-- A state in which no goroutine can take a step is one in which the run has finished,
provided there is at least one worker. -/
theorem stuck_finished (opt : options) (s : RunState) (hw : 1 ≤ opt.workers)
    (hinv : WInv opt s) (hstuck : ∀ a, step opt s a = none) : s.finished = true := by
  obtain ⟨hsz, hg, hcl⟩ := hinv
  have hproc : ∀ (i : Nat) (p : Str), s.workers[i]? ≠ some (Worker.busy p) := by
    intro i p hp
    have := hstuck (Action.process i ⟨s.fs, false⟩)
    simp only [step, hp] at this
    split at this <;> simp at this
  have hrecv : ∀ i : Nat, s.workers[i]? = some Worker.idle →
      s.jobs = [] ∧ s.closed = false := by
    intro i hi
    have := hstuck (Action.receive i)
    simp only [step, hi] at this
    split at this
    · exact absurd this (by simp)
    · next hj =>
      split at this
      · exact absurd this (by simp)
      · next hc => exact ⟨hj, by simpa using hc⟩
  have hne : s.workers ≠ [] := by
    intro h
    rw [h] at hsz
    simp only [List.length_nil] at hsz
    omega
  have hwalk := hstuck Action.walker
  have hidle : s.closed = true → ∀ w ∈ s.workers, w = Worker.exited := by
    intro hc w hm
    obtain ⟨i, hi⟩ := List.getElem?_of_mem hm
    cases w with
    | idle => exact absurd hc (by simp [(hrecv i hi).2])
    | busy p => exact absurd hi (hproc i p)
    | exited => rfl
  have hfin : s.closed = true → s.finished = true := by
    intro hc
    have hall := hidle hc
    obtain ⟨w, hm⟩ := List.exists_mem_of_ne_nil _ hne
    have hj := (hg (hall w hm ▸ hm)).2
    simp only [RunState.finished, hc, hj, List.isEmpty_nil, Bool.true_and, List.all_eq_true,
      beq_iff_eq]
    exact hall
  by_cases hc : s.closed = true
  · exact hfin hc
  · exfalso
    simp only [step] at hwalk
    split at hwalk
    · next p hs =>
      split at hwalk
      · exact absurd hwalk (by simp)
      · next hfull =>
        have hjne : s.jobs ≠ [] := by
          intro h
          rw [h] at hfull
          simp [jobsCapacity] at hfull
        obtain ⟨w, hm⟩ := List.exists_mem_of_ne_nil _ hne
        obtain ⟨i, hi⟩ := List.getElem?_of_mem hm
        cases w with
        | idle => exact hjne (hrecv i hi).1
        | busy p => exact hproc i p hi
        | exited => exact hc (hg hm).1
    · split at hwalk
      · exact absurd hwalk (by simp)
      · exact absurd hwalk (by simp)
      · split at hwalk
        · next h => exact hc h
        · exact absurd hwalk (by simp)

/-- With at least one worker, `wg.Wait()` only returns on a drained queue. -/
theorem returned_finished (opt : options) (s : RunState) (hw : 1 ≤ opt.workers)
    (hinv : WInv opt s) (h : s.returned = true) : s.finished = true := by
  obtain ⟨hsz, hg, _⟩ := hinv
  simp only [RunState.returned, Bool.and_eq_true, List.all_eq_true, beq_iff_eq] at h
  have hne : s.workers ≠ [] := by
    intro e
    rw [e] at hsz
    simp only [List.length_nil] at hsz
    omega
  obtain ⟨w, hm⟩ := List.exists_mem_of_ne_nil _ hne
  have hj := (hg (h.2 w hm ▸ hm)).2
  simp only [RunState.finished, h.1, hj, List.isEmpty_nil, Bool.true_and, List.all_eq_true,
    beq_iff_eq]
  exact h.2

/-! ## The walk below a tenant directory -/

theorem candidatesAfter_append (a b : List Event) :
    candidatesAfter (a ++ b) = candidatesAfter a + candidatesAfter b := by
  simp [candidatesAfter, List.countP_append]

theorem candidatePaths_append (a b : List Event) :
    candidatePaths (a ++ b) = candidatePaths a ++ candidatePaths b := by
  simp [candidatePaths, List.filterMap_append]

theorem candidatePaths_length (evs : List Event) :
    (candidatePaths evs).length = candidatesAfter evs := by
  induction evs with
  | nil => rfl
  | cons e es ih =>
    cases e with
    | candidate p =>
      simp only [candidatePaths, List.filterMap_cons, List.length_cons, candidatesAfter,
        List.countP_cons, Event.isCandidate, if_true] at ih ⊢
      omega
    | progress =>
      simp only [candidatePaths, List.filterMap_cons, candidatesAfter,
        List.countP_cons, Event.isCandidate, Bool.false_eq_true, if_false] at ih ⊢
      omega

theorem mem_candidatePaths (p : Str) (evs : List Event) :
    Event.candidate p ∈ evs ↔ p ∈ candidatePaths evs := by
  simp only [candidatePaths, List.mem_filterMap]
  constructor
  · intro h
    exact ⟨Event.candidate p, h, rfl⟩
  · rintro ⟨e, he, hp⟩
    cases e with
    | candidate q =>
      simp only [Option.some.injEq] at hp
      rw [← hp]; exact he
    | progress => simp at hp

/-- The base of a tenant walk: a cleaned path other than `/` and `.` whose last element is
the tenant's name. -/
theorem relPath_tenant (base T : Str) (hb1 : base ≠ [pathSeparator]) (hb2 : base ≠ ['.'])
    (hb3 : lastElem base = T) (below : List Str) :
    relPath base below = joinPath (T :: below) := by
  simp only [relPath, hb1, hb2, or_self, if_false, hb3, List.singleton_append]

theorem absPath_tenant (base : Str) (hb1 : base ≠ [pathSeparator]) (hb2 : base ≠ ['.'])
    (below : List Str) (hne : below ≠ []) :
    absPath base below = base ++ pathSeparator :: joinPath below := by
  simp only [absPath, hne, hb1, hb2, if_false]

theorem joinPath_cons (a : Str) (b : List Str) (hb : b ≠ []) :
    joinPath (a :: b) = a ++ pathSeparator :: joinPath b := by
  cases b with
  | nil => exact absurd rfl hb
  | cons x xs => rfl

theorem joinPath_append (a b : List Str) (ha : a ≠ []) (hb : b ≠ []) :
    joinPath (a ++ b) = joinPath a ++ pathSeparator :: joinPath b := by
  induction a with
  | nil => exact absurd rfl ha
  | cons x xs ih =>
    cases xs with
    | nil => exact joinPath_cons x b hb
    | cons y ys =>
      have h1 := ih (by simp)
      rw [List.cons_append, joinPath_cons x _ (by simp), h1, joinPath_cons x (y :: ys) (by simp)]
      simp

theorem cleanParts_append (a b : List Str) :
    cleanParts (a ++ b) = cleanParts a ++ cleanParts b := by
  induction a with
  | nil => rfl
  | cons x xs ih =>
    show cleanParts (x :: (xs ++ b)) = cleanParts (x :: xs) ++ cleanParts b
    simp only [cleanParts]
    split
    · exact ih
    · rw [ih]; rfl

/-- Below a directory with clean names, the parts of a deeper directory start with those
names, whatever the names further down are. -/
theorem splitClean_extends (names extra : List Str) (hne : names ≠ [])
    (hc : ∀ x ∈ names, cleanName x) (hex : extra ≠ []) :
    ∃ more : List Str, splitClean (joinPath (names ++ extra)) = names ++ more := by
  have hj := joinPath_ne names hne hc
  rw [joinPath_append names extra hne hex]
  refine ⟨cleanParts (Split pathSeparator (joinPath extra)), ?_⟩
  have h1 : joinPath names ++ pathSeparator :: joinPath extra ≠ [] := by
    intro e
    have := (List.append_eq_nil.mp e).1
    exact hj.1 this
  have h2 : joinPath names ++ pathSeparator :: joinPath extra ≠ ['.'] := by
    intro e
    cases hn : joinPath names with
    | nil => exact hj.1 hn
    | cons c cs =>
      rw [hn] at e
      simp only [List.cons_append, List.cons.injEq] at e
      have := (List.append_eq_nil.mp e.2).2
      simp at this
  unfold splitClean
  simp only [h1, h2, or_self, if_false]
  rw [Split_append_sep, Split_joinPath names hne (fun n hn => (hc n hn).2.2.1),
    cleanParts_append, cleanParts_clean names hc]

theorem callback_malformed_ext (cutoff : Time) (path a b c d e f g : Str) (more : List Str)
    (h : parseTimestampFromParts c d e f g = none) :
    (walkCompanyCallback cutoff path ([a, b, c, d, e, f, g] ++ more)).1 = [] := by
  cases more with
  | nil => rw [List.append_nil, callback_malformed cutoff path a b c d e f g h]
  | cons x xs => rw [callback_deep cutoff path _ (by simp)]

mutual
/-- Below a minute directory whose name does not decode the walk makes no call at all. -/
theorem walkNode_below_malformed (base T : Str) (cutoff : Time)
    (hb1 : base ≠ [pathSeparator]) (hb2 : base ≠ ['.']) (hb3 : lastElem base = T)
    (b c d e f g : Str) (hc : ∀ x ∈ [T, b, c, d, e, f, g], cleanName x)
    (hp : parseTimestampFromParts c d e f g = none) :
    ∀ (n : Node) (extra : List Str), extra ≠ [] →
      walkNode base 1 (walkCompanyCallback cutoff) ([b, c, d, e, f, g] ++ extra) n = []
  | Node.file _, _, _ => by simp [walkNode]
  | Node.dir name readable kids, extra, hex => by
    have hk := walkKids_below_malformed base T cutoff hb1 hb2 hb3 b c d e f g hc hp kids extra
    obtain ⟨more, hm⟩ := splitClean_extends [T, b, c, d, e, f, g] extra (by simp) hc hex
    have hrel : relPath base ([b, c, d, e, f, g] ++ extra)
        = joinPath ([T, b, c, d, e, f, g] ++ extra) :=
      relPath_tenant base T hb1 hb2 hb3 _
    have hev := callback_malformed_ext cutoff (absPath base ([b, c, d, e, f, g] ++ extra))
      T b c d e f g more hp
    unfold walkNode
    simp only [hrel, hm]
    have hlen : ¬ ([T, b, c, d, e, f, g] ++ more).length < 1 := by simp
    simp only [hlen, if_false]
    generalize walkCompanyCallback cutoff (absPath base ([b, c, d, e, f, g] ++ extra))
      ([T, b, c, d, e, f, g] ++ more) = r at hev
    obtain ⟨evs, res⟩ := r
    simp only at hev
    subst hev
    cases res with
    | nil =>
      simp only [List.nil_append]
      split
      · exact hk
      · rfl
    | SkipDir => rfl
theorem walkKids_below_malformed (base T : Str) (cutoff : Time)
    (hb1 : base ≠ [pathSeparator]) (hb2 : base ≠ ['.']) (hb3 : lastElem base = T)
    (b c d e f g : Str) (hc : ∀ x ∈ [T, b, c, d, e, f, g], cleanName x)
    (hp : parseTimestampFromParts c d e f g = none) :
    ∀ (ks : List Node) (extra : List Str),
      walkKids base 1 (walkCompanyCallback cutoff) ([b, c, d, e, f, g] ++ extra) ks = []
  | [], _ => by simp [walkKids]
  | k :: ks, extra => by
    have h1 := walkNode_below_malformed base T cutoff hb1 hb2 hb3 b c d e f g hc hp k
      (extra ++ [k.name]) (by simp)
    have h2 := walkKids_below_malformed base T cutoff hb1 hb2 hb3 b c d e f g hc hp ks extra
    unfold walkKids
    rw [List.append_assoc, h1, h2]
    rfl
end

mutual
/-- In a regular tenant tree the paths handed to `onCandidate` are those of the minute-level
directories that satisfy the cutoff predicate, in walking order. -/
theorem walkNode_candidatePaths (base T : Str) (cutoff : Time)
    (hb1 : base ≠ [pathSeparator]) (hb2 : base ≠ ['.']) (hb3 : lastElem base = T) :
    ∀ (n : Node) (below : List Str), (∀ x ∈ T :: below, cleanName x) →
      regularTree (below.length + 1) n = true →
      candidatePaths (walkNode base 1 (walkCompanyCallback cutoff) below n)
        = ((minuteDirs (T :: below) n).filter (isExpired cutoff)).map
            (fun names => absPath base names.tail)
  | Node.file _, _, _, _ => by simp [walkNode, minuteDirs, candidatePaths]
  | Node.dir name readable kids, below, hc, hreg => by
    have ih := walkKids_candidatePaths base T cutoff hb1 hb2 hb3 kids below hc
    have hsplit : splitClean (relPath base below) = T :: below := by
      rw [relPath_tenant base T hb1 hb2 hb3]
      exact splitClean_of_clean (T :: below) (by simp) hc
    have hlen : ¬ (T :: below).length < 1 := by simp
    unfold walkNode minuteDirs
    simp only [hsplit, hlen, if_false]
    simp only [regularTree, Bool.or_eq_true, decide_eq_true_eq, Bool.and_eq_true] at hreg
    rcases Nat.lt_trichotomy (T :: below).length 7 with hlt | heq | hgt
    · have hl : below.length + 1 < 7 := by simpa using hlt
      rcases hreg with h7 | ⟨hr, hk⟩
      · omega
      · rw [callback_shallow cutoff _ _ (by simp) (by omega)]
        simp only [hr, if_true, List.nil_append, show (T :: below).length ≠ 7 from by omega,
          if_false, hlt]
        exact ih hk
    · simp only [heq, if_true]
      rcases below with _ | ⟨b, _ | ⟨c, _ | ⟨d, _ | ⟨e, _ | ⟨f, _ | ⟨g, _ | ⟨i, r⟩⟩⟩⟩⟩⟩⟩ <;>
        simp only [List.length_cons, List.length_nil] at heq <;> try omega
      cases hp : parseTimestampFromParts c d e f g with
      | none =>
        rw [callback_malformed cutoff _ T b c d e f g hp]
        have hkids := walkKids_below_malformed base T cutoff hb1 hb2 hb3 b c d e f g hc hp
          kids []
        rw [List.append_nil] at hkids
        simp only [hkids, List.append_nil, ite_self]
        simp [candidatePaths, isExpired, hp]
      | some ts =>
        rw [callback_minute cutoff _ T b c d e f g ts hp]
        by_cases hb : ts.Before cutoff = true
        · simp [candidatePaths, isExpired, hp, hb]
        · simp [candidatePaths, isExpired, hp, hb]
    · rw [callback_deep cutoff _ _ (by omega)]
      simp only [show (T :: below).length ≠ 7 from by omega, if_false,
        show ¬ (T :: below).length < 7 from by omega]
      simp [candidatePaths]
theorem walkKids_candidatePaths (base T : Str) (cutoff : Time)
    (hb1 : base ≠ [pathSeparator]) (hb2 : base ≠ ['.']) (hb3 : lastElem base = T) :
    ∀ (ks : List Node) (below : List Str), (∀ x ∈ T :: below, cleanName x) →
      regularKids (below.length + 2) ks = true →
      candidatePaths (walkKids base 1 (walkCompanyCallback cutoff) below ks)
        = ((minuteDirsKids (T :: below) ks).filter (isExpired cutoff)).map
            (fun names => absPath base names.tail)
  | [], _, _, _ => by simp [walkKids, minuteDirsKids, candidatePaths]
  | k :: ks, below, hc, hreg => by
    have ih1 := walkNode_candidatePaths base T cutoff hb1 hb2 hb3 k (below ++ [k.name])
    have ih2 := walkKids_candidatePaths base T cutoff hb1 hb2 hb3 ks below hc
    simp only [regularKids, Bool.and_eq_true] at hreg
    unfold walkKids minuteDirsKids
    rw [candidatePaths_append, List.filter_append, List.map_append, ih2 hreg.2]
    congr 1
    cases k with
    | file _ => simp [walkNode, minuteDirs, candidatePaths]
    | dir name readable kids =>
      have hcn : cleanName name := by
        simpa [Node.cleanDir] using hreg.1.1
      apply ih1
      · intro x hx
        simp only [Node.name, List.mem_cons, List.mem_append, List.mem_singleton,
          List.not_mem_nil, or_false] at hx
        rcases hx with h | h | h
        · exact hc x (by simp [h])
        · exact hc x (by simp [h])
        · rw [h]; exact hcn
      · simpa using hreg.1.2
end

mutual
theorem minuteDirs_clean (T : Str) :
    ∀ (n : Node) (below : List Str), (∀ x ∈ T :: below, cleanName x) →
      regularTree (below.length + 1) n = true →
      ∀ names ∈ minuteDirs (T :: below) n,
        names.length = 7 ∧ (∀ x ∈ names, cleanName x) ∧ names.head? = some T
  | Node.file _, _, _, _ => by simp [minuteDirs]
  | Node.dir name readable kids, below, hc, hreg => by
    have ih := minuteDirsKids_clean T kids below hc
    intro names hm
    unfold minuteDirs at hm
    simp only [regularTree, Bool.or_eq_true, decide_eq_true_eq, Bool.and_eq_true] at hreg
    split at hm
    · next h7 =>
      simp only [List.mem_singleton] at hm
      rw [hm]
      exact ⟨h7, hc, rfl⟩
    · split at hm
      · next hlt =>
        rcases hreg with h7 | ⟨_, hk⟩
        · simp only [List.length_cons] at hlt
          omega
        · exact ih hk names hm
      · simp at hm
theorem minuteDirsKids_clean (T : Str) :
    ∀ (ks : List Node) (below : List Str), (∀ x ∈ T :: below, cleanName x) →
      regularKids (below.length + 2) ks = true →
      ∀ names ∈ minuteDirsKids (T :: below) ks,
        names.length = 7 ∧ (∀ x ∈ names, cleanName x) ∧ names.head? = some T
  | [], _, _, _ => by simp [minuteDirsKids]
  | k :: ks, below, hc, hreg => by
    have ih1 := minuteDirs_clean T k (below ++ [k.name])
    have ih2 := minuteDirsKids_clean T ks below hc
    simp only [regularKids, Bool.and_eq_true] at hreg
    intro names hm
    unfold minuteDirsKids at hm
    rcases List.mem_append.mp hm with h | h
    · cases k with
      | file _ => simp [minuteDirs] at h
      | dir name readable kids =>
        have hcn : cleanName name := by
          simpa [Node.cleanDir] using hreg.1.1
        refine ih1 ?_ (by simpa using hreg.1.2) names h
        intro x hx
        simp only [Node.name, List.mem_cons, List.mem_append, List.mem_singleton,
          List.not_mem_nil, or_false] at hx
        rcases hx with h | h | h
        · exact hc x (by simp [h])
        · exact hc x (by simp [h])
        · rw [h]; exact hcn
    · exact ih2 hreg.2 names h
end

theorem absPath_inj (base : Str) (hb1 : base ≠ [pathSeparator]) (hb2 : base ≠ ['.'])
    (a b : List Str) (ha : a ≠ []) (hb : b ≠ [])
    (hca : ∀ x ∈ a, cleanName x) (hcb : ∀ x ∈ b, cleanName x)
    (h : absPath base a = absPath base b) : a = b := by
  rw [absPath_tenant base hb1 hb2 a ha, absPath_tenant base hb1 hb2 b hb] at h
  have h1 := List.append_cancel_left h
  simp only [List.cons.injEq, true_and] at h1
  have e1 := Split_joinPath a ha (fun n hn => (hca n hn).2.2.1)
  have e2 := Split_joinPath b hb (fun n hn => (hcb n hn).2.2.1)
  rw [h1] at e1
  exact e1.symm.trans e2

/-- In the walk of a tenant directory named by a plain name, over a regular tree, a
minute-level directory is handed to `onCandidate` exactly when it satisfies the cutoff
predicate. -/
theorem walkCompany_emits_iff (opt : options) (cfg : Config) (T : Str) (hT : plainName T)
    (n : Node) (hn : regularTree 1 n = true) (names : List Str)
    (hm : names ∈ minuteDirs [T] n) :
    Event.candidate (absPath (Clean (Join [opt.root, T])) names.tail)
        ∈ walkCompany opt cfg T (Join [opt.root, T]) (some n)
      ↔ isExpired (cutoffFor opt cfg T) names = true := by
  obtain ⟨hb1, hb2, hb3⟩ := base_of_tenant opt.root T hT
  have hcT : ∀ x ∈ T :: ([] : List Str), cleanName x := by
    intro x hx
    simp only [List.mem_singleton] at hx
    rw [hx]; exact hT.1
  rw [mem_candidatePaths]
  unfold walkCompany walkDirOnly
  simp only
  rw [walkNode_candidatePaths _ T _ hb1 hb2 hb3 n [] hcT (by simpa using hn), List.mem_map]
  have hc := minuteDirs_clean T n [] hcT (by simpa using hn)
  have tailfacts : ∀ l : List Str, l.length = 7 → (∀ x ∈ l, cleanName x) →
      l.tail ≠ [] ∧ ∀ x ∈ l.tail, cleanName x := by
    intro l hl hcl
    cases l with
    | nil => simp at hl
    | cons a t =>
      refine ⟨?_, fun x hx => hcl x (List.mem_cons_of_mem _ hx)⟩
      intro e
      simp only [List.tail_cons] at e
      rw [e] at hl
      simp at hl
  constructor
  · rintro ⟨names1, h1, hj⟩
    have hf := List.mem_filter.mp h1
    obtain ⟨l1, c1, t1⟩ := hc names1 hf.1
    obtain ⟨l0, c0, t0⟩ := hc names hm
    obtain ⟨n1, k1⟩ := tailfacts names1 l1 c1
    obtain ⟨n0, k0⟩ := tailfacts names l0 c0
    have ht : names1.tail = names.tail := absPath_inj _ hb1 hb2 _ _ n1 n0 k1 k0 hj
    have : names1 = names := by
      cases names1 with
      | nil => simp at l1
      | cons a1 r1 =>
        cases names with
        | nil => simp at l0
        | cons a0 r0 =>
          simp only [List.head?_cons, Option.some.injEq] at t1 t0
          simp only [List.tail_cons] at ht
          rw [t1, t0, ht]
    rw [← this]
    exact hf.2
  · intro he
    exact ⟨names, List.mem_filter.mpr ⟨hm, he⟩, rfl⟩

theorem walkCompany_candidates (opt : options) (cfg : Config) (T : Str) (hT : plainName T)
    (n : Node) (hn : regularTree 1 n = true) :
    candidatesAfter (walkCompany opt cfg T (Join [opt.root, T]) (some n))
      = ((minuteDirs [T] n).filter (isExpired (cutoffFor opt cfg T))).length := by
  obtain ⟨hb1, hb2, hb3⟩ := base_of_tenant opt.root T hT
  have hcT : ∀ x ∈ T :: ([] : List Str), cleanName x := by
    intro x hx
    simp only [List.mem_singleton] at hx
    rw [hx]; exact hT.1
  rw [← candidatePaths_length]
  unfold walkCompany walkDirOnly
  simp only
  rw [walkNode_candidatePaths _ T _ hb1 hb2 hb3 n [] hcT (by simpa using hn), List.length_map]

/-- On a regular file system the walk calls `onCandidate` once for every minute-level
directory that satisfies the cutoff predicate. -/
theorem walkCompanies_candidates (opt : options) (cfg : Config) (fs : FileSystem)
    (evs : List Event) (hw : walkCompanies opt cfg fs = some evs)
    (hreg : regularRun opt fs = true) : candidatesAfter evs = expiredCount opt cfg fs := by
  unfold walkCompanies at hw
  unfold expiredCount
  unfold regularRun at hreg
  unfold tenantsOf at hreg ⊢
  by_cases ht : opt.targetCompany ≠ []
  · rw [if_pos ht] at hw hreg ⊢
    simp only [Option.some.injEq] at hw
    rw [← hw]
    cases hl : fs.lstat (Join [opt.root, opt.targetCompany]) with
    | none => simp [walkCompany, walkDirOnly, candidatesAfter]
    | some n =>
      rw [hl] at hreg
      simp only [Option.toList, List.map_cons, List.map_nil, List.all_cons, List.all_nil,
        Bool.and_true, Bool.and_eq_true, decide_eq_true_eq] at hreg
      obtain ⟨⟨hT, hnames⟩, hn⟩ := hreg
      simp only [Option.toList, List.map_cons, List.map_nil, List.sum_cons, List.sum_nil,
        Nat.add_zero, hnames]
      exact walkCompany_candidates opt cfg _ hT n hn
  · rw [if_neg ht] at hw hreg ⊢
    cases hr : fs.readRoot with
    | none =>
      rw [hr] at hw
      exact absurd hw (by simp)
    | some entries =>
      rw [hr] at hw hreg
      simp only [Option.some.injEq, Option.getD_some] at hw hreg ⊢
      rw [← hw]
      clear hw hr
      induction entries with
      | nil => simp [candidatesAfter]
      | cons e es ih =>
        rw [List.flatMap_cons, candidatesAfter_append]
        cases e with
        | file _ =>
          simp only [List.filterMap_cons] at hreg ⊢
          rw [ih hreg]
          simp [candidatesAfter]
        | dir name readable kids =>
          simp only [List.filterMap_cons, List.all_cons, Bool.and_eq_true,
            decide_eq_true_eq] at hreg
          simp only [List.filterMap_cons, List.map_cons, List.sum_cons]
          rw [ih hreg.2, walkCompany_candidates opt cfg name hreg.1.1.1 _ hreg.1.2]

/-! ## C10: the components handed to the callback -/

/-- Amended C10: on a relative path made of clean names (non-empty, not `"."`, no
separator inside, no white space at either end) joined by the separator, `splitClean`
returns exactly those names, in order. -/
theorem splitClean_joinPath (names : List Str) (hne : names ≠ [])
    (h : ∀ n ∈ names, cleanName n) : splitClean (joinPath names) = names := by
  obtain ⟨h1, h2⟩ := joinPath_ne names hne h
  unfold splitClean
  simp only [h1, h2, or_self, if_false]
  rw [Split_joinPath names hne (fun n hn => (h n hn).2.2.1)]
  exact cleanParts_clean names h

/-- The relative path `1001/dev/2024`. -/
theorem splitClean_joinPath_witness :
    (["1001".toList, "dev".toList, "2024".toList] : List Str) ≠ [] ∧
    splitClean (joinPath ["1001".toList, "dev".toList, "2024".toList])
      = ["1001".toList, "dev".toList, "2024".toList] :=
  ⟨by decide, splitClean_joinPath _ (by decide) (by decide)⟩

/-- C10 as stated fails: names that are not empty, not `"."` and free of the separator are
not returned unchanged when they carry white space (`" dev"` loses its blank), and a name
of blanks only is dropped, so that the length is not the depth. -/
theorem splitClean_not_identity :
    ¬ (∀ names : List Str, names ≠ [] →
        (∀ n ∈ names, n ≠ [] ∧ n ≠ ['.'] ∧ pathSeparator ∉ n) →
        splitClean (joinPath names) = names) ∧
    splitClean (joinPath ["1001".toList, " dev".toList]) = ["1001".toList, "dev".toList] ∧
    splitClean (joinPath ["1001".toList, " ".toList, "2024".toList])
      = ["1001".toList, "2024".toList] := by
  refine ⟨?_, by decide, by decide⟩
  intro h
  have := h ["1001".toList, " dev".toList] (by decide) (by decide)
  revert this
  decide

/-! ## C7: every candidate is handled exactly once -/

/-- C7: with at least one worker, whatever the walk emits, however the goroutines
interleave and whatever each `os.RemoveAll` does: at every point the candidates counted are
those handled (deleted or failed) plus those still in flight; once the queue is closed and
drained and all workers have returned, `failed + deleted == candidates`, which is the number
of `onCandidate` calls of the walk; a run that can take no further step has reached that
point, no run takes more steps than the start measure, and a complete run exists. -/
theorem failed_plus_deleted_eq_candidates (opt : options) (events : List Event)
    (fs : FileSystem) (hw : 1 ≤ opt.workers) :
    (∀ (sched : List Action) (s : RunState),
      run opt (initState opt events fs) sched = some s →
        s.deleted + s.failed + s.inFlight = s.candidates ∧
        (s.finished = true →
          s.failed + s.deleted = s.candidates ∧ s.candidates = candidatesAfter events) ∧
        ((∀ a, step opt s a = none) → s.finished = true) ∧
        sched.length ≤ (initState opt events fs).measure) ∧
    (∀ out : RemoveOutcome, ∃ s,
      run opt (initState opt events fs) (completeSchedule out events opt.workers.toNat) = some s ∧
        s.finished = true) := by
  refine ⟨?_, fun out => run_complete opt out events fs hw⟩
  intro sched s hrun
  have hinv := Inv_run opt events sched _ s (Inv_init opt events fs) hrun
  have hwinv := WInv_run opt sched _ s (WInv_init opt events fs) hrun
  have hm := measure_run opt sched _ s hrun
  refine ⟨hinv.flight.symm, finished_counts events s hinv, stuck_finished opt s hw hwinv, ?_⟩
  omega

/-- A run in execute mode with two workers in which the one removal fails. -/
theorem failed_plus_deleted_eq_candidates_witness :
    (1 : Int) ≤ ({ exOpts with execute := true, workers := 2 } : options).workers ∧
    ∃ s, run { exOpts with execute := true, workers := 2 }
        (initState { exOpts with execute := true, workers := 2 } exEvents exFS)
        (completeSchedule ⟨exFS, true⟩ exEvents 2) = some s ∧
      s.finished = true ∧ s.failed + s.deleted = s.candidates ∧ s.candidates = 1 := by
  have h := failed_plus_deleted_eq_candidates { exOpts with execute := true, workers := 2 }
    exEvents exFS (by decide)
  obtain ⟨s, hs, hf⟩ := h.2 ⟨exFS, true⟩
  have hc := (h.1 _ s hs).2.1 hf
  exact ⟨by decide, s, hs, hf, hc.1, hc.2.trans (by decide)⟩

/-! ## Dry-run -/

/-- In dry-run mode no step changes the file system or the `failed` counter. -/
theorem dry_step (opt : options) (hdry : opt.execute = false) (s s1 : RunState) (a : Action)
    (h : step opt s a = some s1) : s1.fs = s.fs ∧ s1.failed = s.failed := by
  cases a with
  | walker =>
    simp only [step] at h
    split at h
    · split at h
      · simp only [Option.some.injEq] at h
        subst h; exact ⟨rfl, rfl⟩
      · exact absurd h (by simp)
    · split at h
      · simp only [Option.some.injEq] at h
        subst h; exact ⟨rfl, rfl⟩
      · simp only [Option.some.injEq] at h
        subst h; exact ⟨rfl, rfl⟩
      · split at h
        · exact absurd h (by simp)
        · simp only [Option.some.injEq] at h
          subst h; exact ⟨rfl, rfl⟩
  | receive i =>
    simp only [step] at h
    split at h
    · split at h
      · simp only [Option.some.injEq] at h
        subst h; exact ⟨rfl, rfl⟩
      · split at h
        · simp only [Option.some.injEq] at h
          subst h; exact ⟨rfl, rfl⟩
        · exact absurd h (by simp)
    · exact absurd h (by simp)
  | process i out =>
    simp only [step, hdry, Bool.not_false, if_true] at h
    split at h
    · simp only [Option.some.injEq] at h
      subst h; exact ⟨rfl, rfl⟩
    · exact absurd h (by simp)

theorem dry_run (opt : options) (hdry : opt.execute = false) (sched : List Action) :
    ∀ (s s1 : RunState), run opt s sched = some s1 → s1.fs = s.fs ∧ s1.failed = s.failed := by
  induction sched with
  | nil =>
    intro s s1 h
    simp only [run, Option.some.injEq] at h
    subst h
    exact ⟨rfl, rfl⟩
  | cons a rest ih =>
    intro s s1 h
    cases hs : step opt s a with
    | none => simp [run, hs] at h
    | some s2 =>
      simp only [run, hs] at h
      have h1 := ih s2 s1 h
      have h2 := dry_step opt hdry s s2 a hs
      exact ⟨h1.1.trans h2.1, h1.2.trans h2.2⟩

theorem finished_returned (s : RunState) (h : s.finished = true) : s.returned = true := by
  simp only [RunState.finished, Bool.and_eq_true] at h
  simp only [RunState.returned, Bool.and_eq_true]
  exact ⟨h.1.1, h.2⟩

/-! ## C4: dry-run leaves the tree alone and counts the expired minute directories -/

/-- Amended C4: in dry-run mode, for every policy and every file system on which the walk
does not fail at the root, no step of a run changes the file system and the `failed`
counter stays 0; and when `main` has returned from `wg.Wait()`, with at least one worker
and a regular file system (every walked directory is a tenant directory named by a plain
name, every directory from there down to the minute level has a clean name, and every
directory above the minute level can be read), the `deleted` counter is the number of
minute-level directories (depth 7) of the walked tenants whose last five names decode to an
instant strictly before the tenant's cutoff. With at least one worker a run that returns
exists. -/
theorem dry_run_counts_expired (opt : options) (cfg : Config) (fs : FileSystem)
    (events : List Event) (hdry : opt.execute = false)
    (hwalk : walkCompanies opt cfg fs = some events) :
    (∀ (sched : List Action) (s : RunState),
      run opt (initState opt events fs) sched = some s →
        s.fs = fs ∧ s.failed = 0 ∧
        (s.returned = true → 1 ≤ opt.workers → regularRun opt fs = true →
          s.deleted = expiredCount opt cfg fs)) ∧
    (1 ≤ opt.workers → ∀ out : RemoveOutcome, ∃ s,
      run opt (initState opt events fs) (completeSchedule out events opt.workers.toNat)
          = some s ∧
        s.returned = true) := by
  constructor
  · intro sched s hrun
    have hd := dry_run opt hdry sched _ s hrun
    have hinv := Inv_run opt _ sched _ s (Inv_init opt _ fs) hrun
    have hwinv := WInv_run opt sched _ s (WInv_init opt events fs) hrun
    refine ⟨hd.1, hd.2, ?_⟩
    intro hret hw hreg
    have hfin := returned_finished opt s hw hwinv hret
    have hc := finished_counts _ s hinv hfin
    have h0 : s.failed = 0 := hd.2
    rw [← walkCompanies_candidates opt cfg fs events hwalk hreg]
    omega
  · intro hw out
    obtain ⟨s, hs, hf⟩ := run_complete opt out events fs hw
    exact ⟨s, hs, finished_returned s hf⟩

/-- A complete dry run over the scenario with the default of 30 days. -/
theorem dry_run_counts_expired_witness :
    exOpts.execute = false ∧ walkCompanies exOpts exPolicy30 exFS = some exEvents ∧
    ∃ s, run exOpts (initState exOpts exEvents exFS)
        (completeSchedule ⟨exFS, false⟩ exEvents 1) = some s ∧
      s.returned = true ∧ s.fs = exFS ∧ s.failed = 0 ∧ s.deleted = 1 ∧
      expiredCount exOpts exPolicy30 exFS = 1 := by
  have h := dry_run_counts_expired exOpts exPolicy30 exFS exEvents (by decide) (by decide)
  obtain ⟨s, hs, hf⟩ := h.2 (by decide) ⟨exFS, false⟩
  have hc := h.1 _ s hs
  have he : expiredCount exOpts exPolicy30 exFS = 1 := by decide
  exact ⟨by decide, by decide, s, hs, hf, hc.1, hc.2.1,
    (hc.2.2 hf (by decide) (by decide)).trans he, he⟩

/-- C4 as stated fails in four ways, each shown by a complete dry run. (1) A directory
named by a blank: `splitClean` drops the blank component, so the directory at depth 8 is
taken for a minute directory and counted, against no expired minute-level directory.
(2) No worker: the walk counts one candidate, `main` returns with `deleted = 0`.
(3) A company filter that is not a tenant name: with `1001/dev` the parts start at `dev`
and the directory at depth 8 is counted. (4) An unreadable device directory: the expired
minute directory below it is never visited. -/
theorem dry_run_miscount :
    (exOpts.execute = false ∧
      walkCompanies exOpts exPolicy30 exBlankFS
        = some [Event.candidate "/data/1001/dev/ /2020/01/01/00/00".toList, Event.progress] ∧
      (run exOpts
          (initState exOpts
            [Event.candidate "/data/1001/dev/ /2020/01/01/00/00".toList, Event.progress]
            exBlankFS)
          (completeSchedule ⟨exBlankFS, false⟩
            [Event.candidate "/data/1001/dev/ /2020/01/01/00/00".toList, Event.progress]
            1)).map
        (fun s => (s.returned, s.deleted, s.failed)) = some (true, 1, 0) ∧
      expiredCount exOpts exPolicy30 exBlankFS = 0) ∧
    (walkCompanies { exOpts with workers := 0 } exPolicy30 exFS = some exEvents ∧
      (run { exOpts with workers := 0 }
          (initState { exOpts with workers := 0 } exEvents exFS)
          [Action.walker, Action.walker, Action.walker, Action.walker, Action.walker]).map
        (fun s => (s.returned, s.deleted, s.failed)) = some (true, 0, 0) ∧
      regularRun { exOpts with workers := 0 } exFS = true ∧
      expiredCount { exOpts with workers := 0 } exPolicy30 exFS = 1) ∧
    (walkCompanies { exOpts with targetCompany := "1001/dev".toList } exPolicy30 exDeepFS
        = some [Event.candidate "/data/1001/dev/x/2020/01/01/00/00".toList, Event.progress] ∧
      (run { exOpts with targetCompany := "1001/dev".toList }
          (initState { exOpts with targetCompany := "1001/dev".toList }
            [Event.candidate "/data/1001/dev/x/2020/01/01/00/00".toList, Event.progress]
            exDeepFS)
          (completeSchedule ⟨exDeepFS, false⟩
            [Event.candidate "/data/1001/dev/x/2020/01/01/00/00".toList, Event.progress]
            1)).map
        (fun s => (s.returned, s.deleted, s.failed)) = some (true, 1, 0) ∧
      expiredCount { exOpts with targetCompany := "1001/dev".toList } exPolicy30 exDeepFS
        = 0) ∧
    (walkCompanies exOpts exPolicy30 exUnreadableFS = some [] ∧
      (run exOpts (initState exOpts [] exUnreadableFS)
          (completeSchedule ⟨exUnreadableFS, false⟩ [] 1)).map
        (fun s => (s.returned, s.deleted, s.failed)) = some (true, 0, 0) ∧
      expiredCount exOpts exPolicy30 exUnreadableFS = 1) := by
  decide

/-! ## C1: the cutoff comparison -/

/-- C1: for a minute directory (seven components) whose last five components decode to the
instant `I`, the callback of `walkCompany` calls `onCandidate` with the directory's path
exactly when `I` is before the tenant's cutoff (`Time.Before`: earlier second, or same
second and earlier nanosecond), the reference instant moved back by `retentionFor` days
(86400 seconds each within the 64-bit second count, nanoseconds kept); a directory exactly
at the cutoff is not emitted, one a minute earlier is. This is amended C1: the walk of
`walkCompany` over the tenant's directory emits a minute-level directory of the tenant
under the same condition when the tenant is named by a plain name (no separator, no
leading or trailing white space, not empty, not a dot name), the directories from the
tenant down to the minute level have clean names, and those above the minute level can be
read. -/
theorem walkCompany_candidate_iff (opt : options) (cfg : Config) (T path a b ys ms ds hs mins : Str)
    (I : Time) (hdec : parseTimestampFromParts ys ms ds hs mins = some I) :
    (Event.candidate path ∈
        (walkCompanyCallback (cutoffFor opt cfg T) path [a, b, ys, ms, ds, hs, mins]).1
      ↔ I.Before (cutoffFor opt cfg T) = true) ∧
    (I.Before (cutoffFor opt cfg T) = true ↔
      (I.ext < (cutoffFor opt cfg T).ext ∨
        (I.ext = (cutoffFor opt cfg T).ext ∧ I.nsec < (cutoffFor opt cfg T).nsec))) ∧
    (I = cutoffFor opt cfg T → Event.candidate path ∉
        (walkCompanyCallback (cutoffFor opt cfg T) path [a, b, ys, ms, ds, hs, mins]).1) ∧
    (I.ext + 60 = (cutoffFor opt cfg T).ext → Event.candidate path ∈
        (walkCompanyCallback (cutoffFor opt cfg T) path [a, b, ys, ms, ds, hs, mins]).1) ∧
    (0 ≤ opt.nowUTC.nsec → opt.nowUTC.nsec < 1000000000 →
      cutoffFor opt cfg T =
        { ext := wrapInt64 (opt.nowUTC.ext + 86400 * wrapInt64 (-(retentionFor T cfg))),
          nsec := opt.nowUTC.nsec }) ∧
    (0 ≤ opt.nowUTC.nsec → opt.nowUTC.nsec < 1000000000 →
      -9223372036854775807 ≤ retentionFor T cfg → retentionFor T cfg ≤ 9223372036854775807 →
      -9223372036854775808 ≤ opt.nowUTC.ext - 86400 * retentionFor T cfg →
      opt.nowUTC.ext - 86400 * retentionFor T cfg ≤ 9223372036854775807 →
      cutoffFor opt cfg T =
        { ext := opt.nowUTC.ext - 86400 * retentionFor T cfg, nsec := opt.nowUTC.nsec }) ∧
    (plainName T → ∀ n : Node, regularTree 1 n = true →
      [a, b, ys, ms, ds, hs, mins] ∈ minuteDirs [T] n →
      (Event.candidate (absPath (Clean (Join [opt.root, T])) [b, ys, ms, ds, hs, mins])
          ∈ walkCompany opt cfg T (Join [opt.root, T]) (some n)
        ↔ I.Before (cutoffFor opt cfg T) = true)) := by
  have hiff : Event.candidate path ∈
        (walkCompanyCallback (cutoffFor opt cfg T) path [a, b, ys, ms, ds, hs, mins]).1
      ↔ I.Before (cutoffFor opt cfg T) = true := by
    rw [callback_minute _ _ _ _ _ _ _ _ _ I hdec]
    by_cases hb : I.Before (cutoffFor opt cfg T) = true
    · simp [hb]
    · simp [hb]
  have hbef : I.Before (cutoffFor opt cfg T) = true ↔
      (I.ext < (cutoffFor opt cfg T).ext ∨
        (I.ext = (cutoffFor opt cfg T).ext ∧ I.nsec < (cutoffFor opt cfg T).nsec)) := by
    simp [Time.Before]
  refine ⟨hiff, hbef, ?_, ?_, ?_, ?_, ?_⟩
  · intro he
    rw [hiff, hbef, ← he]
    omega
  · intro he
    rw [hiff, hbef]
    left; omega
  · intro h0 h1
    exact AddDate_days opt.nowUTC _ h0 h1
  · intro h0 h1 hr0 hr1 hc0 hc1
    have := AddDate_days opt.nowUTC (wrapInt64 (-(retentionFor T cfg))) h0 h1
    unfold cutoffFor
    rw [this]
    congr 1
    generalize retentionFor T cfg = R at *
    generalize opt.nowUTC.ext = E at *
    simp only [wrapInt64]
    omega
  · intro hT n hn hm
    have h := walkCompany_emits_iff opt cfg T hT n hn _ hm
    simp only [List.tail, isExpired, hdec] at h
    exact h

/-- The scenario: reference instant 2024-06-15 12:00 UTC and two minute directories of
tenant `1001`, dated 40 and 10 days earlier. With 60 days for the tenant neither is a
candidate; with the default of 30 days only the older one is. -/
theorem walkCompany_candidate_iff_witness :
    parseTimestampFromParts "2024".toList "05".toList "06".toList "12".toList "00".toList
      = some (Date 2024 5 6 12 0 0 0) ∧
    exNow = Date 2024 6 15 12 0 0 0 ∧
    cutoffFor exOpts exPolicy60 "1001".toList = Date 2024 4 16 12 0 0 0 ∧
    cutoffFor exOpts exPolicy30 "1001".toList = Date 2024 5 16 12 0 0 0 ∧
    walkCompanies exOpts exPolicy60 exFS = some [Event.progress, Event.progress] ∧
    walkCompanies exOpts exPolicy30 exFS
      = some [Event.candidate "/data/1001/dev/2024/05/06/12/00".toList, Event.progress,
          Event.progress] ∧
    (Event.candidate "/data/1001/dev/2024/05/06/12/00".toList ∈
        (walkCompanyCallback (cutoffFor exOpts exPolicy30 "1001".toList)
          "/data/1001/dev/2024/05/06/12/00".toList
          ["1001".toList, "dev".toList, "2024".toList, "05".toList, "06".toList, "12".toList,
            "00".toList]).1
      ↔ (Date 2024 5 6 12 0 0 0).Before (cutoffFor exOpts exPolicy30 "1001".toList) = true) ∧
    plainName "1001".toList ∧
    regularTree 1 (Node.dir "1001".toList true [exDevice]) = true ∧
    ["1001".toList, "dev".toList, "2024".toList, "05".toList, "06".toList, "12".toList,
        "00".toList] ∈ minuteDirs ["1001".toList] (Node.dir "1001".toList true [exDevice]) ∧
    absPath (Clean (Join [exOpts.root, "1001".toList]))
        ["dev".toList, "2024".toList, "05".toList, "06".toList, "12".toList, "00".toList]
      = "/data/1001/dev/2024/05/06/12/00".toList ∧
    (Event.candidate (absPath (Clean (Join [exOpts.root, "1001".toList]))
          ["dev".toList, "2024".toList, "05".toList, "06".toList, "12".toList, "00".toList])
        ∈ walkCompany exOpts exPolicy30 "1001".toList (Join [exOpts.root, "1001".toList])
            (some (Node.dir "1001".toList true [exDevice]))
      ↔ (Date 2024 5 6 12 0 0 0).Before (cutoffFor exOpts exPolicy30 "1001".toList) = true) :=
  ⟨by decide, by decide, by decide, by decide, by decide, by decide,
    (walkCompany_candidate_iff exOpts exPolicy30 "1001".toList
      "/data/1001/dev/2024/05/06/12/00".toList "1001".toList "dev".toList "2024".toList
      "05".toList "06".toList "12".toList "00".toList (Date 2024 5 6 12 0 0 0) (by decide)).1,
    by decide, by decide, by decide, by decide,
    (walkCompany_candidate_iff exOpts exPolicy30 "1001".toList
      "/data/1001/dev/2024/05/06/12/00".toList "1001".toList "dev".toList "2024".toList
      "05".toList "06".toList "12".toList "00".toList (Date 2024 5 6 12 0 0 0)
      (by decide)).2.2.2.2.2.2 (by decide) _ (by decide) (by decide)⟩

/-- C1 as stated fails on the tenant directory `1001/ /2020/01/01/00/00`: the directory
`00` at its end has seven components, the last five decode to 2020-01-01 00:00 UTC, which
is before the cutoff 2024-05-16 12:00 UTC, and the tenant name is plain; but `splitClean`
drops the blank component, the callback sees six parts for it, and the walk of the tenant
emits nothing. -/
theorem walkCompany_blank_device_not_emitted :
    plainName "1001".toList ∧
    ["1001".toList, " ".toList, "2020".toList, "01".toList, "01".toList, "00".toList,
        "00".toList] ∈ minuteDirs ["1001".toList] exBlankTenant ∧
    parseTimestampFromParts "2020".toList "01".toList "01".toList "00".toList "00".toList
      = some (Date 2020 1 1 0 0 0 0) ∧
    (Date 2020 1 1 0 0 0 0).Before (cutoffFor exOpts exPolicy30 "1001".toList) = true ∧
    Join [exOpts.root, "1001".toList] = "/data/1001".toList ∧
    relPath (Clean "/data/1001".toList)
        [" ".toList, "2020".toList, "01".toList, "01".toList, "00".toList, "00".toList]
      = "1001/ /2020/01/01/00/00".toList ∧
    (splitClean "1001/ /2020/01/01/00/00".toList).length = 6 ∧
    walkCompany exOpts exPolicy30 "1001".toList "/data/1001".toList (some exBlankTenant)
      = [] := by
  decide

end RetentionCleaner
